import Mathlib

/-!
# Tech-Hub e-commerce: search relevance and related-product helpers

A shallow embedding of `helpers/jaccard.js`, `helpers/fuzzySearch.js` and the search and
related-product handlers of `controllers/productController.js`.

Conventions of the embedding:
* a JavaScript string is a list of characters (`Str`); string literals are written
  `"...".toList`;
* a JavaScript number is a rational (`ℚ`): the helpers only count, divide two counts,
  multiply by the constants 1.5 and 1.2, and take minima and maxima;
* a `Set` is the list of its elements in insertion order (the order in which spreading
  the set yields them);
* `null` / `undefined` are `none`.
-/

namespace TechHub

/-- A JavaScript string, as the list of its characters. -/
abbrev Str := List Char

/-! ## String primitives used by the helpers -/

/-- The code points matched by `\s` in a regular expression, which are also the ones
removed by `String.prototype.trim`: tab, line feed, vertical tab, form feed, carriage
return, space, no-break space, the Unicode space separators, the line and paragraph
separators and the byte-order mark. -/
def isWhitespaceCode (n : Nat) : Bool :=
  n == 0x09 || n == 0x0A || n == 0x0B || n == 0x0C || n == 0x0D || n == 0x20 ||
  n == 0xA0 || n == 0x1680 || (0x2000 ≤ n && n ≤ 0x200A) || n == 0x2028 ||
  n == 0x2029 || n == 0x202F || n == 0x205F || n == 0x3000 || n == 0xFEFF

/-- Whether a character is whitespace for `\s` and `trim`. -/
def isWhitespace (c : Char) : Bool := isWhitespaceCode c.toNat

/-- The case mapping of `String.prototype.toLowerCase` on one character: `A`..`Z` go to
`a`..`z`. Characters outside ASCII are left in place by this embedding. -/
def lowerChar (c : Char) : Char :=
  if 'A'.toNat ≤ c.toNat ∧ c.toNat ≤ 'Z'.toNat then Char.ofNat (c.toNat + 32) else c

/-- `s.toLowerCase()`. -/
def toLowerCase (s : Str) : Str := s.map lowerChar

/-- `s.trim()`: whitespace removed from both ends. -/
def trim (s : Str) : Str := (s.dropWhile isWhitespace).rdropWhile isWhitespace

/-- Worker of `splitWhitespace`: `cur` is the piece being read (reversed), `inSep` tells
that the previous character belonged to a separator run. -/
def splitWhitespaceAux : Str → Str → Bool → List Str
  | [], cur, _ => [cur.reverse]
  | c :: cs, cur, inSep =>
    if isWhitespace c then
      if inSep then splitWhitespaceAux cs cur true
      else cur.reverse :: splitWhitespaceAux cs [] true
    else splitWhitespaceAux cs (c :: cur) false

/-- `s.split(/\s+/)`: the pieces between maximal runs of whitespace; a leading or trailing
run leaves an empty piece at that end. -/
def splitWhitespace (s : Str) : List Str := splitWhitespaceAux s [] false

/-! ## helpers/jaccard.js -/

/-- `tokenize(text)`: the lowercase words of a text; an empty text has no tokens. -/
def tokenize (text : Str) : List Str :=
  if text = [] then []
  else (splitWhitespace (toLowerCase text)).filter (fun token => decide (token.length > 0))

/-- An argument of `jaccardDetailed`: a keyword array or a free text. -/
inductive JInput where
  | arr (tokens : List Str)
  | text (s : Str)
  deriving DecidableEq, Repr

/-- `Array.isArray(x) ? x : tokenize(x)`. -/
def JInput.tokens : JInput → List Str
  | .arr ts => ts
  | .text s => tokenize s

/-- `set.add(x)` on a set kept in insertion order. -/
def setAdd (s : List Str) (x : Str) : List Str := if x ∈ s then s else s ++ [x]

/-- `new Set(xs)`: elements are added one by one, a repeated element is ignored. -/
def newSet (xs : List Str) : List Str := xs.foldl setAdd []

/-- The value returned by `jaccardDetailed`. -/
structure JaccardResult where
  score : ℚ
  intersection : List Str
  union : List Str
  deriving DecidableEq

/-- `new Set(tokens.map(t => String(t).toLowerCase()))`. -/
def uniqueLower (tokens : List Str) : List Str := newSet (tokens.map toLowerCase)

/-- `jaccardDetailed(setA, setB)`. -/
def jaccardDetailed (setA setB : JInput) : JaccardResult :=
  let tokensA := setA.tokens
  let tokensB := setB.tokens
  let uniqueA := uniqueLower tokensA
  let uniqueB := uniqueLower tokensB
  let intersection := uniqueA.filter (fun item => decide (item ∈ uniqueB))
  let union := newSet (uniqueA ++ uniqueB)
  let score : ℚ := if union.length = 0 then 0 else (intersection.length : ℚ) / (union.length : ℚ)
  { score := score, intersection := intersection, union := union }

/-- `jaccard(setA, setB)`: the score alone. -/
def jaccard (setA setB : JInput) : ℚ := (jaccardDetailed setA setB).score

/-! ## helpers/fuzzySearch.js -/

/-- The characters that the replacement `replace(/[^a-z0-9\s-]/g, "")` leaves in place:
`a`..`z`, `0`..`9`, whitespace and the hyphen. -/
def keptByRegex (c : Char) : Bool :=
  ('a'.toNat ≤ c.toNat && c.toNat ≤ 'z'.toNat) ||
  ('0'.toNat ≤ c.toNat && c.toNat ≤ '9'.toNat) ||
  isWhitespace c || c == '-'

/-- `normalizeSearchTerm(term)`: an absent or empty term gives the empty string; otherwise
the term is lowercased, trimmed, and stripped of the characters outside `[a-z0-9\s-]`. -/
def normalizeSearchTerm (term : Option Str) : Str :=
  match term with
  | none => []
  | some t => if t = [] then [] else (trim (toLowerCase t)).filter keptByRegex

/-- The two scorers of the `fuzzball` library used by the helper. The library is not part
of the repository: its scorers are parameters of the embedding. -/
structure Fuzzball where
  ratio : Str → Str → ℚ
  partial_ratio : Str → Str → ℚ

/-- A product record, as far as the helpers read it; a missing field is `none`. -/
structure Product where
  _id : Str := []
  name : Option Str := none
  description : Option Str := none
  keywords : Option (List Str) := none
  deriving DecidableEq

/-- `Math.max(0, ...scores)`. -/
def mathMax0 (scores : List ℚ) : ℚ := scores.foldl max 0

/-- `calculateFuzzyScore(searchTerm, product)`. The weights 1.5 and 1.2 are the rationals
3/2 and 6/5; `Math.max` of three numbers is the maximum taken twice. -/
def calculateFuzzyScore (fuzzball : Fuzzball) (searchTerm : Option Str)
    (product : Option Product) : ℚ :=
  match searchTerm, product with
  | some term, some product =>
    if term = [] then 0
    else
      let normalized := normalizeSearchTerm (some term)
      let nameScore := fuzzball.ratio normalized
        (normalizeSearchTerm (some (product.name.getD [])))
      let descScore := fuzzball.partial_ratio normalized
        (normalizeSearchTerm (some (product.description.getD [])))
      let maxKeywordScore : ℚ :=
        match product.keywords with
        | some keywords =>
          mathMax0 (keywords.map (fun kw => fuzzball.ratio normalized
            (normalizeSearchTerm (some kw))))
        | none => 0
      let weightedNameScore := nameScore * (3 / 2)
      let weightedKeywordScore := maxKeywordScore * (6 / 5)
      min 100 (max (max weightedNameScore weightedKeywordScore) descScore)
  | _, _ => 0

/-- `s.length`: the number of UTF-16 code units of a string; a character beyond U+FFFF
takes two of them. -/
def jsLength (s : Str) : Nat := (s.map (fun c => if c.toNat < 0x10000 then 1 else 2)).sum

/-- An element of the array built by `fuzzyMatchProducts`: `{ product, score }`. -/
structure ScoredProduct where
  product : Product
  score : ℚ
  deriving DecidableEq

/-- `xs.sort((a, b) => b.score - a.score)`: the built-in sort is stable, and this
comparator puts the higher score first; elements of equal score keep their order. -/
def sortByScoreDesc {α : Type} (score : α → ℚ) (xs : List α) : List α :=
  xs.insertionSort (fun a b => score b ≤ score a)

/-- `fuzzyMatchProducts(searchTerm, products, threshold = 70)`; an omitted threshold is
`none`. -/
def fuzzyMatchProducts (fuzzball : Fuzzball) (searchTerm : Option Str)
    (products : Option (List Product)) (threshold : Option ℚ) : List ScoredProduct :=
  match searchTerm, products with
  | some term, some products =>
    if term = [] then []
    else if jsLength (trim term) ≤ 2 then []
    else
      let scoredProducts :=
        sortByScoreDesc ScoredProduct.score
          ((products.map (fun product =>
            { product := product,
              score := calculateFuzzyScore fuzzball (some term) (some product) })).filter
            (fun item => decide (item.score ≥ threshold.getD 70)))
      scoredProducts
  | _, _ => []

/-! ## controllers/productController.js -/

/-- What a search request reads from outside: the environment variable
`FUZZY_MATCHING_ENABLED`, the number parsed from `FUZZY_THRESHOLD` (70 when unset), the
store's answer to the exact-match query, and the products that `find({})` yields in the
store's order. -/
structure SearchContext where
  fuzzyMatchingEnabled : Option Str
  fuzzyThreshold : ℚ
  exactMatches : List Product
  catalog : List Product

/-- A record of the list sent by `searchProductController`: a product, with the fields
`isFuzzyMatch` and `fuzzyScore` when it comes from the fuzzy tier. -/
structure SearchResult where
  product : Product
  isFuzzyMatch : Option Bool
  fuzzyScore : Option ℚ
  deriving DecidableEq

/-- An exact match is sent as it is, without fuzzy fields. -/
def exactResult (p : Product) : SearchResult :=
  { product := p, isFuzzyMatch := none, fuzzyScore := none }

/-- `{ ...item.product.toObject(), isFuzzyMatch: true, fuzzyScore: item.score }`. -/
def fuzzyResult (item : ScoredProduct) : SearchResult :=
  { product := item.product, isFuzzyMatch := some true, fuzzyScore := some item.score }

/-- `searchProductController`: the list passed to `res.json`. -/
def searchProductController (fuzzball : Fuzzball) (ctx : SearchContext) (keyword : Str) :
    List SearchResult :=
  let fuzzyEnabled : Bool := decide (ctx.fuzzyMatchingEnabled ≠ some "false".toList)
  let fuzzyThreshold := ctx.fuzzyThreshold
  let exactMatches := ctx.exactMatches
  if !fuzzyEnabled || decide (exactMatches.length ≥ 10) then exactMatches.map exactResult
  else
    let candidates := ctx.catalog.take 50
    let fuzzyResults :=
      fuzzyMatchProducts fuzzball (some keyword) (some candidates) (some fuzzyThreshold)
    let exactIds := newSet (exactMatches.map (fun p => p._id))
    let uniqueFuzzy :=
      (sortByScoreDesc ScoredProduct.score
        (fuzzyResults.filter (fun item => !decide (item.product._id ∈ exactIds)))).map
        fuzzyResult
    let combined := exactMatches.map exactResult ++ uniqueFuzzy
    combined

/-- What a related-products request reads from the store: the product found by
`findById(pid)`, if any, and the other products of the category. -/
structure RelatedContext where
  current : Option Product
  candidates : List Product

/-- The comparison basis of a product: its keywords when it has some, else the text
made of its name, a space and its description. -/
def comparisonBasis (p : Product) : JInput :=
  match p.keywords with
  | some (k :: ks) => .arr (k :: ks)
  | _ => .text (p.name.getD [] ++ [' '] ++ p.description.getD [])

/-- An element of `scored` in `relatedProductController`. -/
structure SimilarityItem where
  product : Product
  score : ℚ
  commonKeywords : List Str
  totalKeywords : Nat
  deriving DecidableEq

/-- A record of the `products` list sent by `relatedProductController`. -/
structure RelatedProduct where
  product : Product
  similarityScore : ℚ
  commonKeywords : List Str
  deriving DecidableEq

/-- The response of `relatedProductController`: the status, the `success` flag, the
message and the `products` list, each when present. -/
structure RelatedResponse where
  status : Nat
  success : Bool
  message : Option Str
  products : Option (List RelatedProduct)
  deriving DecidableEq

/-- `relatedProductController`; `limit` is `Number(req.query.limit)` when the query gives
a limit, `none` otherwise. `slice(0, n)` takes the first `⌊n⌋` elements. -/
def relatedProductController (ctx : RelatedContext) (limit : Option ℚ) : RelatedResponse :=
  let limit : ℚ := limit.getD 6
  match ctx.current with
  | none =>
    { status := 404, success := false, message := some "Product not found".toList,
      products := none }
  | some current =>
    let candidates := ctx.candidates
    if candidates.length = 0 then
      { status := 200, success := true, message := none, products := some [] }
    else
      let baseTokens := comparisonBasis current
      let scored :=
        (sortByScoreDesc SimilarityItem.score
          ((candidates.map (fun p =>
            let targetTokens := comparisonBasis p
            let similarity := jaccardDetailed baseTokens targetTokens
            ({ product := p, score := similarity.score,
               commonKeywords := similarity.intersection,
               totalKeywords := similarity.union.length } : SimilarityItem))).filter
            (fun item => decide (item.score > 0)))).take ⌊max 0 limit⌋₊
      let products := scored.map (fun s =>
        ({ product := s.product, similarityScore := s.score,
           commonKeywords := s.commonKeywords } : RelatedProduct))
      { status := 200, success := true, message := none, products := some products }

/-! ## Definitions that follow the words of the specification -/

/-- A letter, as the specification's word is read here: `a`..`z` or `A`..`Z`. -/
def isLetter (c : Char) : Bool :=
  ('a'.toNat ≤ c.toNat && c.toNat ≤ 'z'.toNat) || ('A'.toNat ≤ c.toNat && c.toNat ≤ 'Z'.toNat)

/-- The best keyword ratio, in the words of the specification: the maximum full ratio of
the normalised term against the normalised keywords, 0 when there is no keyword. -/
def maxKeywordRatio (fuzzball : Fuzzball) (normalized : Str) (keywords : List Str) : ℚ :=
  match (keywords.map (fun kw => fuzzball.ratio normalized
    (normalizeSearchTerm (some kw)))).max? with
  | some m => m
  | none => 0

/-- The score, in the words of the specification: the minimum of 100 and the maximum of
1.5 times the name ratio, 1.2 times the best keyword ratio and the partial ratio against
the description. -/
def fuzzyScoreSpec (fuzzball : Fuzzball) (term : Option Str) (product : Product) : ℚ :=
  let normalized := normalizeSearchTerm term
  let nameRatio := fuzzball.ratio normalized (normalizeSearchTerm product.name)
  let descPartialRatio := fuzzball.partial_ratio normalized
    (normalizeSearchTerm product.description)
  min 100 (max (max ((3 / 2) * nameRatio)
    ((6 / 5) * maxKeywordRatio fuzzball normalized (product.keywords.getD [])))
    descPartialRatio)

/-- The lowercased tokens of an input, in the words of the specification: the elements
of a keyword array, or the non-empty pieces of a text split on whitespace, each
lowercased. -/
def loweredTokens : JInput → List Str
  | .arr ts => ts.map toLowerCase
  | .text s => ((splitWhitespace s).filter (fun piece => decide (piece ≠ []))).map toLowerCase

/-- An input that yields no tokens, in the words of the specification: an empty array,
or a text that is empty or made of whitespace only. -/
def yieldsNoTokens : JInput → Bool
  | .arr ts => ts.isEmpty
  | .text s => s.all isWhitespace

/-- The assumption of the range claim on the library: every full ratio and every partial
ratio is a number between 0 and 100. -/
def ratiosInRange (fuzzball : Fuzzball) : Prop :=
  ∀ a b, (0 ≤ fuzzball.ratio a b ∧ fuzzball.ratio a b ≤ 100) ∧
    (0 ≤ fuzzball.partial_ratio a b ∧ fuzzball.partial_ratio a b ≤ 100)

/-- A stand-in for the library in the examples: both scorers give 100 when the two
strings are equal and non-empty, and 0 otherwise. -/
def exactMatchScorer : Fuzzball where
  ratio := fun a b => if a = [] ∨ b = [] then 0 else if a = b then 100 else 0
  partial_ratio := fun a b => if a = [] ∨ b = [] then 0 else if a = b then 100 else 0

/-- The product of the helper's tests. -/
def wirelessMouse : Product where
  _id := "1".toList
  name := some "Wireless Mouse".toList
  description := some "A high-quality wireless mouse".toList
  keywords := some ["mouse".toList, "wireless".toList]

/-- Two terms that differ only in the case of their ASCII letters: they have the same
length and, position by position, either the same character or the same letter in two
cases. -/
def differOnlyInCase (s t : Str) : Bool :=
  s.length == t.length &&
    (s.zip t).all (fun ab =>
      ab.1 == ab.2 || (isLetter ab.1 && isLetter ab.2 && lowerChar ab.1 == lowerChar ab.2))

/-- The pair `{ product, score }` that `fuzzyMatchProducts` computes for one product. -/
def scoreProduct (fuzzball : Fuzzball) (term : Str) (product : Product) : ScoredProduct :=
  { product := product, score := calculateFuzzyScore fuzzball (some term) (some product) }

/-- The second product of the helper's tests. -/
def gamingKeyboard : Product where
  _id := "2".toList
  name := some "Gaming Keyboard".toList
  description := some "Mechanical gaming keyboard".toList
  keywords := some ["keyboard".toList, "gaming".toList]

/-- The third product of the helper's tests. -/
def usbCable : Product where
  _id := "3".toList
  name := some "USB Cable".toList
  description := some "USB-C charging cable".toList
  keywords := some ["cable".toList, "usb".toList]

/-- The fourth product of the helper's tests. -/
def computerMonitor : Product where
  _id := "4".toList
  name := some "Computer Monitor".toList
  description := some "27 inch LED monitor".toList
  keywords := some ["monitor".toList, "display".toList]

/-- The catalogue of the helper's tests. -/
def mockProducts : List Product :=
  [wirelessMouse, gamingKeyboard, usbCable, computerMonitor]

/-- The fuzzy tier of a search, in the words of the specification: the fuzzy matches of
the candidate window (the first 50 products of the store) at the configured threshold
whose identity is not that of an exact match. -/
def fuzzyTier (fuzzball : Fuzzball) (ctx : SearchContext) (keyword : Str) :
    List ScoredProduct :=
  (fuzzyMatchProducts fuzzball (some keyword) (some (ctx.catalog.take 50))
    (some ctx.fuzzyThreshold)).filter
    (fun item => decide (item.product._id ∉ ctx.exactMatches.map (fun p => p._id)))

/-- A store for the examples: one exact match, and a catalogue that holds it together
with the products of the tests. -/
def mockContext (enabled : Option Str) : SearchContext :=
  { fuzzyMatchingEnabled := enabled, fuzzyThreshold := 70,
    exactMatches := [wirelessMouse], catalog := mockProducts }

/-- The element of `scored` that `relatedProductController` computes for one candidate. -/
def similarityItem (current p : Product) : SimilarityItem :=
  { product := p,
    score := (jaccardDetailed (comparisonBasis current) (comparisonBasis p)).score,
    commonKeywords :=
      (jaccardDetailed (comparisonBasis current) (comparisonBasis p)).intersection,
    totalKeywords :=
      (jaccardDetailed (comparisonBasis current) (comparisonBasis p)).union.length }

/-- The record sent for an element of `scored`. -/
def toRelatedProduct (s : SimilarityItem) : RelatedProduct :=
  { product := s.product, similarityScore := s.score, commonKeywords := s.commonKeywords }

/-- The record of a candidate, in the words of the specification: the candidate with its
Jaccard score against the source and the tokens they have in common. -/
def relatedRecord (current p : Product) : RelatedProduct :=
  { product := p,
    similarityScore := jaccard (comparisonBasis current) (comparisonBasis p),
    commonKeywords :=
      (jaccardDetailed (comparisonBasis current) (comparisonBasis p)).intersection }

/-- The candidates that pass the score filter, sorted: `scored` before the `slice`. -/
def relatedRanking (current : Product) (candidates : List Product) : List SimilarityItem :=
  sortByScoreDesc SimilarityItem.score
    ((candidates.map (similarityItem current)).filter (fun item => decide (item.score > 0)))

/-- The comparison basis, in the words of the specification: the keyword list when it is
non-empty, otherwise the text made of the name, a space and the description, a missing
field being read as the empty string. -/
def basisSpec (p : Product) : JInput :=
  if p.keywords.getD [] ≠ [] then .arr (p.keywords.getD [])
  else .text (p.name.getD [] ++ " ".toList ++ p.description.getD [])

/-- The product of the tests of `calculateFuzzyScore`. -/
def mockProduct : Product where
  name := some "Wireless Mouse".toList
  description := some "A high-quality wireless mouse with ergonomic design".toList
  keywords := some ["mouse".toList, "wireless".toList, "computer".toList,
    "accessory".toList]

/-- A product whose score is saturated by the cap, in the words of the claim: its name
ratio is at least 67 or its best keyword ratio at least 84. -/
def saturates (fuzzball : Fuzzball) (term : Str) (p : Product) : Prop :=
  67 ≤ fuzzball.ratio (normalizeSearchTerm (some term)) (normalizeSearchTerm p.name) ∨
  84 ≤ maxKeywordRatio fuzzball (normalizeSearchTerm (some term)) (p.keywords.getD [])

/-- A second mouse for the examples of ties. -/
def gamingMouse : Product where
  _id := "5".toList
  name := some "Gaming Mouse".toList
  description := some "RGB gaming mouse".toList
  keywords := some ["mouse".toList, "gaming".toList]

/-! ## Lemmas: characters and splitting -/

theorem toNat_ofNat_of_lt (n : Nat) (h : n < 0xd800) : (Char.ofNat n).toNat = n := by
  have hv : n.isValidChar := Or.inl h
  simp only [Char.ofNat, hv, Char.ofNatAux, Char.toNat, dif_pos]
  rfl

theorem isWhitespaceCode_ascii_letter (n : Nat) (h1 : 65 ≤ n) (h2 : n ≤ 122) :
    isWhitespaceCode n = false := by
  interval_cases n <;> rfl

theorem toNat_lowerChar_of_upper (c : Char) (h1 : 65 ≤ c.toNat) (h2 : c.toNat ≤ 90) :
    (lowerChar c).toNat = c.toNat + 32 := by
  have h : 'A'.toNat ≤ c.toNat ∧ c.toNat ≤ 'Z'.toNat := ⟨h1, h2⟩
  simp only [lowerChar, h, and_self, if_true]
  exact toNat_ofNat_of_lt _ (by omega)

theorem lowerChar_of_not_upper (c : Char) (h : ¬ (65 ≤ c.toNat ∧ c.toNat ≤ 90)) :
    lowerChar c = c := by
  have h' : ¬ ('A'.toNat ≤ c.toNat ∧ c.toNat ≤ 'Z'.toNat) := h
  simp only [lowerChar, h', if_false]

theorem isWhitespace_lowerChar (c : Char) : isWhitespace (lowerChar c) = isWhitespace c := by
  by_cases h : 65 ≤ c.toNat ∧ c.toNat ≤ 90
  · unfold isWhitespace
    rw [toNat_lowerChar_of_upper c h.1 h.2,
      isWhitespaceCode_ascii_letter _ (by omega) (by omega),
      isWhitespaceCode_ascii_letter _ h.1 (by omega)]
  · rw [lowerChar_of_not_upper c h]

theorem lowerChar_idem (c : Char) : lowerChar (lowerChar c) = lowerChar c := by
  by_cases h : 65 ≤ c.toNat ∧ c.toNat ≤ 90
  · apply lowerChar_of_not_upper
    rw [toNat_lowerChar_of_upper c h.1 h.2]
    omega
  · rw [lowerChar_of_not_upper c h, lowerChar_of_not_upper c h]

theorem toLowerCase_idem (s : Str) : toLowerCase (toLowerCase s) = toLowerCase s := by
  simp [toLowerCase, lowerChar_idem]

theorem toLowerCase_eq_nil (s : Str) : toLowerCase s = [] ↔ s = [] := by
  simp [toLowerCase]

theorem splitWhitespaceAux_toLowerCase (s cur : Str) (inSep : Bool) :
    splitWhitespaceAux (toLowerCase s) (toLowerCase cur) inSep =
      (splitWhitespaceAux s cur inSep).map toLowerCase := by
  induction s generalizing cur inSep with
  | nil => simp [splitWhitespaceAux, toLowerCase]
  | cons c cs ih =>
    have hc : toLowerCase (c :: cs) = lowerChar c :: toLowerCase cs := rfl
    rw [hc]
    simp only [splitWhitespaceAux, isWhitespace_lowerChar]
    by_cases hw : isWhitespace c = true
    · simp only [hw, if_true]
      cases inSep with
      | true => simpa using ih cur true
      | false =>
        have h0 := ih [] true
        have hn : toLowerCase ([] : Str) = [] := rfl
        rw [hn] at h0
        simp only [Bool.false_eq_true, if_false, List.map_cons, h0]
        simp [toLowerCase]
    · simp only [hw, if_false]
      have h1 := ih (c :: cur) false
      have hcc : toLowerCase (c :: cur) = lowerChar c :: toLowerCase cur := rfl
      rw [hcc] at h1
      simpa using h1

theorem splitWhitespace_toLowerCase (s : Str) :
    splitWhitespace (toLowerCase s) = (splitWhitespace s).map toLowerCase :=
  splitWhitespaceAux_toLowerCase s [] false

/-- The tokens handed to the sets by the code are the lowercased tokens of the
specification. -/
theorem map_toLowerCase_tokens (A : JInput) :
    A.tokens.map toLowerCase = loweredTokens A := by
  cases A with
  | arr ts => rfl
  | text s =>
    simp only [JInput.tokens, loweredTokens, tokenize]
    by_cases hs : s = []
    · subst hs
      simp [splitWhitespace, splitWhitespaceAux]
    · simp only [hs, if_false]
      rw [splitWhitespace_toLowerCase, List.filter_map, List.map_map]
      have hf : (fun token : Str => decide (token.length > 0)) ∘ toLowerCase =
          fun piece : Str => decide (piece ≠ []) := by
        funext t
        cases t <;> simp [toLowerCase]
      rw [hf]
      apply List.map_congr_left
      intro t _
      exact toLowerCase_idem t

/-! ## Lemmas: sets in insertion order -/

theorem mem_foldl_setAdd (xs acc : List Str) (x : Str) :
    x ∈ xs.foldl setAdd acc ↔ x ∈ acc ∨ x ∈ xs := by
  induction xs generalizing acc with
  | nil => simp
  | cons y ys ih =>
    rw [List.foldl_cons, ih]
    unfold setAdd
    by_cases hy : y ∈ acc
    · simp only [hy, if_true, List.mem_cons]
      constructor
      · rintro (h | h)
        · exact Or.inl h
        · exact Or.inr (Or.inr h)
      · rintro (h | h | h)
        · exact Or.inl h
        · exact Or.inl (h ▸ hy)
        · exact Or.inr h
    · simp only [hy, if_false, List.mem_append, List.mem_singleton, List.mem_cons]
      tauto

theorem nodup_foldl_setAdd (xs acc : List Str) (h : acc.Nodup) :
    (xs.foldl setAdd acc).Nodup := by
  induction xs generalizing acc with
  | nil => simpa using h
  | cons y ys ih =>
    rw [List.foldl_cons]
    apply ih
    unfold setAdd
    by_cases hy : y ∈ acc
    · simpa [hy] using h
    · simp only [hy, if_false]
      rw [List.nodup_append]
      refine ⟨h, List.nodup_singleton y, ?_⟩
      intro a ha hb
      rw [List.mem_singleton] at hb
      exact hy (hb ▸ ha)

theorem mem_newSet (xs : List Str) (x : Str) : x ∈ newSet xs ↔ x ∈ xs := by
  simp [newSet, mem_foldl_setAdd]

theorem nodup_newSet (xs : List Str) : (newSet xs).Nodup :=
  nodup_foldl_setAdd xs [] List.nodup_nil

theorem mem_uniqueLower (A : JInput) (t : Str) :
    t ∈ uniqueLower A.tokens ↔ t ∈ loweredTokens A := by
  rw [uniqueLower, mem_newSet, map_toLowerCase_tokens]

/-- Two duplicate-free lists with the same elements have the same length. -/
theorem length_eq_of_nodup_of_mem_iff {l₁ l₂ : List Str} (h₁ : l₁.Nodup) (h₂ : l₂.Nodup)
    (h : ∀ t, t ∈ l₁ ↔ t ∈ l₂) : l₁.length = l₂.length :=
  ((List.perm_ext_iff_of_nodup h₁ h₂).mpr h).length_eq

/-- A duplicate-free list contained in another list is no longer than it. -/
theorem length_le_of_nodup_of_subset {l₁ l₂ : List Str} (h₁ : l₁.Nodup)
    (h : ∀ t, t ∈ l₁ → t ∈ l₂) : l₁.length ≤ l₂.length :=
  (List.subperm_of_subset h₁ h).length_le

/-! ## Lemmas: the fields of `jaccardDetailed` -/

theorem nodup_intersection (A B : JInput) : (jaccardDetailed A B).intersection.Nodup :=
  (nodup_newSet _).filter _

theorem mem_intersection (A B : JInput) (t : Str) :
    t ∈ (jaccardDetailed A B).intersection ↔ t ∈ loweredTokens A ∧ t ∈ loweredTokens B := by
  simp only [jaccardDetailed, List.mem_filter, decide_eq_true_eq, mem_uniqueLower]

theorem nodup_union (A B : JInput) : (jaccardDetailed A B).union.Nodup :=
  nodup_newSet _

theorem mem_union (A B : JInput) (t : Str) :
    t ∈ (jaccardDetailed A B).union ↔ t ∈ loweredTokens A ∨ t ∈ loweredTokens B := by
  simp only [jaccardDetailed, mem_newSet, List.mem_append, mem_uniqueLower]

theorem score_eq (A B : JInput) :
    (jaccardDetailed A B).score =
      if (jaccardDetailed A B).union.length = 0 then 0
      else ((jaccardDetailed A B).intersection.length : ℚ) /
        ((jaccardDetailed A B).union.length : ℚ) := rfl

theorem intersection_length_le_union_length (A B : JInput) :
    (jaccardDetailed A B).intersection.length ≤ (jaccardDetailed A B).union.length := by
  apply length_le_of_nodup_of_subset (nodup_intersection A B)
  intro t ht
  rw [mem_union]
  rw [mem_intersection] at ht
  exact Or.inl ht.1

theorem intersection_length_comm (A B : JInput) :
    (jaccardDetailed A B).intersection.length = (jaccardDetailed B A).intersection.length := by
  apply length_eq_of_nodup_of_mem_iff (nodup_intersection A B) (nodup_intersection B A)
  intro t
  rw [mem_intersection, mem_intersection, and_comm]

theorem union_length_comm (A B : JInput) :
    (jaccardDetailed A B).union.length = (jaccardDetailed B A).union.length := by
  apply length_eq_of_nodup_of_mem_iff (nodup_union A B) (nodup_union B A)
  intro t
  rw [mem_union, mem_union, or_comm]

theorem intersection_length_self (A : JInput) :
    (jaccardDetailed A A).intersection.length = (jaccardDetailed A A).union.length := by
  apply length_eq_of_nodup_of_mem_iff (nodup_intersection A A) (nodup_union A A)
  intro t
  rw [mem_intersection, mem_union, and_self, or_self]

theorem splitWhitespaceAux_all_whitespace (s : Str) (inSep : Bool)
    (h : ∀ c ∈ s, isWhitespace c = true) :
    ∀ p ∈ splitWhitespaceAux s [] inSep, p = [] := by
  induction s generalizing inSep with
  | nil => simp [splitWhitespaceAux]
  | cons c cs ih =>
    have hc : isWhitespace c = true := h c (List.mem_cons_self c cs)
    have hcs : ∀ d ∈ cs, isWhitespace d = true := fun d hd => h d (List.mem_cons_of_mem c hd)
    simp only [splitWhitespaceAux, hc, if_true]
    cases inSep with
    | true => simpa using ih true hcs
    | false =>
      intro p hp
      simp only [Bool.false_eq_true, if_false, List.reverse_nil, List.mem_cons] at hp
      rcases hp with hp | hp
      · exact hp
      · exact ih true hcs p hp

theorem tokens_eq_nil_of_yieldsNoTokens (A : JInput) (h : yieldsNoTokens A = true) :
    A.tokens = [] := by
  cases A with
  | arr ts => simpa [yieldsNoTokens, JInput.tokens] using h
  | text s =>
    simp only [yieldsNoTokens, List.all_eq_true] at h
    simp only [JInput.tokens, tokenize]
    split
    · rfl
    · rw [List.filter_eq_nil_iff]
      intro p hp
      have hl : ∀ c ∈ toLowerCase s, isWhitespace c = true := by
        intro c hc
        simp only [toLowerCase, List.mem_map] at hc
        obtain ⟨d, hd, rfl⟩ := hc
        rw [isWhitespace_lowerChar]
        exact h d hd
      have := splitWhitespaceAux_all_whitespace (toLowerCase s) false hl p hp
      simp [this]

theorem score_eq_zero_of_tokens_nil (A B : JInput) (hA : A.tokens = []) (hB : B.tokens = []) :
    (jaccardDetailed A B).score = 0 := by
  simp [jaccardDetailed, hA, hB, uniqueLower, newSet]

theorem score_self_of_tokens_ne_nil (A : JInput) (h : A.tokens ≠ []) :
    (jaccardDetailed A A).score = 1 := by
  obtain ⟨t, ts, hts⟩ := List.exists_cons_of_ne_nil h
  have hmem : toLowerCase t ∈ (jaccardDetailed A A).union := by
    rw [mem_union, ← map_toLowerCase_tokens, hts]
    simp
  have hpos : (jaccardDetailed A A).union.length ≠ 0 := by
    intro h0
    rw [List.length_eq_zero] at h0
    rw [h0] at hmem
    exact List.not_mem_nil _ hmem
  rw [score_eq, if_neg hpos, intersection_length_self]
  have hq : ((jaccardDetailed A A).union.length : ℚ) ≠ 0 := by exact_mod_cast hpos
  exact div_self hq

/-! ## Claims about `jaccardDetailed` and `jaccard` -/

/-- C1. For all inputs A and B, the intersection returned by `jaccardDetailed` is the
duplicate-free list of exactly the lowercased tokens occurring in both inputs, the union
is the duplicate-free list of exactly the lowercased tokens occurring in at least one of
them, and whenever the union is non-empty the score is the length of the intersection
divided by the length of the union. -/
theorem jaccardDetailed_contract (A B : JInput) :
    (jaccardDetailed A B).intersection.Nodup ∧
    (∀ t, t ∈ (jaccardDetailed A B).intersection ↔
      t ∈ loweredTokens A ∧ t ∈ loweredTokens B) ∧
    (jaccardDetailed A B).union.Nodup ∧
    (∀ t, t ∈ (jaccardDetailed A B).union ↔
      t ∈ loweredTokens A ∨ t ∈ loweredTokens B) ∧
    ((jaccardDetailed A B).union ≠ [] →
      (jaccardDetailed A B).score =
        ((jaccardDetailed A B).intersection.length : ℚ) /
          ((jaccardDetailed A B).union.length : ℚ)) := by
  refine ⟨nodup_intersection A B, mem_intersection A B, nodup_union A B, mem_union A B, ?_⟩
  intro hne
  have hpos : (jaccardDetailed A B).union.length ≠ 0 := by
    rw [Ne, List.length_eq_zero]
    exact hne
  rw [score_eq, if_neg hpos]

/-- C1, on the example of the specification: keywords `gaming, computer` against
`gaming, computer, laptop, portable` give a non-empty union, the intersection
`gaming, computer` and the score 2/4 = 1/2. -/
theorem jaccardDetailed_contract_witness :
    (jaccardDetailed (.arr ["gaming".toList, "computer".toList])
      (.arr ["gaming".toList, "computer".toList, "laptop".toList, "portable".toList])).union
        ≠ [] ∧
    (jaccardDetailed (.arr ["gaming".toList, "computer".toList])
      (.arr ["gaming".toList, "computer".toList, "laptop".toList,
        "portable".toList])).intersection = ["gaming".toList, "computer".toList] ∧
    (jaccardDetailed (.arr ["gaming".toList, "computer".toList])
      (.arr ["gaming".toList, "computer".toList, "laptop".toList, "portable".toList])).score
        = 1 / 2 := by
  have hne : (jaccardDetailed (.arr ["gaming".toList, "computer".toList])
      (.arr ["gaming".toList, "computer".toList, "laptop".toList, "portable".toList])).union
        ≠ [] := by decide
  refine ⟨hne, by decide, ?_⟩
  rw [(jaccardDetailed_contract _ _).2.2.2.2 hne]
  have h1 : (jaccardDetailed (.arr ["gaming".toList, "computer".toList])
      (.arr ["gaming".toList, "computer".toList, "laptop".toList,
        "portable".toList])).intersection.length = 2 := by decide
  have h2 : (jaccardDetailed (.arr ["gaming".toList, "computer".toList])
      (.arr ["gaming".toList, "computer".toList, "laptop".toList,
        "portable".toList])).union.length = 4 := by decide
  rw [h1, h2]
  norm_num

/-- C2. When both inputs yield no tokens (empty arrays, or texts that are empty or
whitespace-only), `jaccardDetailed` and `jaccard` return the score 0, not 1. -/
theorem jaccard_no_tokens (A B : JInput) (hA : yieldsNoTokens A = true)
    (hB : yieldsNoTokens B = true) :
    (jaccardDetailed A B).score = 0 ∧ jaccard A B = 0 ∧ jaccard A B ≠ 1 := by
  have h0 : (jaccardDetailed A B).score = 0 :=
    score_eq_zero_of_tokens_nil A B (tokens_eq_nil_of_yieldsNoTokens A hA)
      (tokens_eq_nil_of_yieldsNoTokens B hB)
  refine ⟨h0, h0, ?_⟩
  show (jaccardDetailed A B).score ≠ 1
  rw [h0]
  norm_num

/-- C2, on two empty arrays and on an empty array against a whitespace-only text. -/
theorem jaccard_no_tokens_witness :
    (jaccard (.arr []) (.arr []) = 0 ∧ jaccard (.arr []) (.arr []) ≠ 1) ∧
    (jaccardDetailed (.text " \t ".toList) (.text []) ).score = 0 :=
  ⟨(jaccard_no_tokens (.arr []) (.arr []) (by decide) (by decide)).2,
    (jaccard_no_tokens (.text " \t ".toList) (.text []) (by decide) (by decide)).1⟩

/-- C3. For every array A with at least one token (in any case, with any duplicates),
`jaccard(A, A) = 1`. -/
theorem jaccard_self (ts : List Str) (h : ts ≠ []) : jaccard (.arr ts) (.arr ts) = 1 :=
  score_self_of_tokens_ne_nil (.arr ts) h

/-- C3, on the array `Gaming, gaming, computer`. -/
theorem jaccard_self_witness :
    ["Gaming".toList, "gaming".toList, "computer".toList] ≠ [] ∧
    jaccard (.arr ["Gaming".toList, "gaming".toList, "computer".toList])
      (.arr ["Gaming".toList, "gaming".toList, "computer".toList]) = 1 :=
  ⟨by decide, jaccard_self _ (by decide)⟩

/-- C4. For all inputs A and B, `jaccard(A, B) = jaccard(B, A)`. -/
theorem jaccard_comm (A B : JInput) : jaccard A B = jaccard B A := by
  unfold jaccard
  rw [score_eq, score_eq, intersection_length_comm A B, union_length_comm A B]

/-- C5. For all inputs A and B, the score returned by `jaccardDetailed` (and so by
`jaccard`) satisfies `0 ≤ score ≤ 1`. -/
theorem jaccard_score_bounds (A B : JInput) :
    (0 ≤ (jaccardDetailed A B).score ∧ (jaccardDetailed A B).score ≤ 1) ∧
    (0 ≤ jaccard A B ∧ jaccard A B ≤ 1) := by
  have key : 0 ≤ (jaccardDetailed A B).score ∧ (jaccardDetailed A B).score ≤ 1 := by
    rw [score_eq]
    split
    · exact ⟨le_refl 0, zero_le_one⟩
    · next hpos =>
      have hle := intersection_length_le_union_length A B
      have hq : (0 : ℚ) < ((jaccardDetailed A B).union.length : ℚ) := by
        exact_mod_cast Nat.pos_of_ne_zero hpos
      constructor
      · exact div_nonneg (Nat.cast_nonneg _) (Nat.cast_nonneg _)
      · rw [div_le_one hq]
        exact_mod_cast hle
  exact ⟨key, key⟩

/-! ## Lemmas: `Math.max(0, ...)` -/

theorem foldl_max_ge_init (l : List ℚ) (a : ℚ) : a ≤ l.foldl max a := by
  induction l generalizing a with
  | nil => exact le_refl a
  | cons x xs ih => exact le_trans (le_max_left a x) (ih (max a x))

theorem foldl_max_eq_of_nonneg (l : List ℚ) (a : ℚ) (ha : 0 ≤ a) :
    l.foldl max (max 0 a) = l.foldl max a := by
  rw [max_eq_right ha]

theorem mathMax0_nonneg (l : List ℚ) : 0 ≤ mathMax0 l := foldl_max_ge_init l 0

theorem mathMax0_eq_zero (l : List ℚ) (h : ∀ x ∈ l, x = 0) : mathMax0 l = 0 := by
  unfold mathMax0
  induction l with
  | nil => rfl
  | cons x xs ih =>
    rw [List.foldl_cons, h x (List.mem_cons_self x xs), max_self]
    exact ih (fun y hy => h y (List.mem_cons_of_mem x hy))

/-- On non-negative scores, `Math.max(0, ...scores)` is the maximum of the scores, and 0
when there is none. -/
theorem mathMax0_eq_max? (l : List ℚ) (h : ∀ x ∈ l, 0 ≤ x) :
    mathMax0 l = (match l.max? with | some m => m | none => 0) := by
  cases l with
  | nil => rfl
  | cons x xs =>
    simp only [mathMax0, List.foldl_cons, List.max?]
    rw [max_eq_right (h x (List.mem_cons_self x xs))]

theorem normalizeSearchTerm_getD (o : Option Str) :
    normalizeSearchTerm (some (o.getD [])) = normalizeSearchTerm o := by
  cases o with
  | none => rfl
  | some t => rfl

theorem normalizeSearchTerm_of_empty (term : Option Str) (h : term.getD [] = []) :
    normalizeSearchTerm term = [] := by
  cases term with
  | none => rfl
  | some t =>
    have ht : t = [] := h
    subst ht
    rfl

/-! ## Claims about `calculateFuzzyScore` -/

/-- C6. For every search term and every product, when the library's full ratio and
partial ratio are numbers in [0,100], `calculateFuzzyScore(term, product)` lies in
[0,100]. -/
theorem calculateFuzzyScore_range (fuzzball : Fuzzball) (term : Option Str)
    (product : Option Product) (h : ratiosInRange fuzzball) :
    0 ≤ calculateFuzzyScore fuzzball term product ∧
      calculateFuzzyScore fuzzball term product ≤ 100 := by
  cases term with
  | none => simp [calculateFuzzyScore]
  | some t =>
    cases product with
    | none => simp [calculateFuzzyScore]
    | some p =>
      simp only [calculateFuzzyScore]
      split
      · norm_num
      · exact ⟨le_min (by norm_num) (le_max_of_le_right (h _ _).2.1), min_le_left _ _⟩

/-- C6, on the test product and the term `wireless mouse`. -/
theorem calculateFuzzyScore_range_witness :
    ratiosInRange exactMatchScorer ∧
    0 ≤ calculateFuzzyScore exactMatchScorer (some "wireless mouse".toList)
      (some wirelessMouse) ∧
    calculateFuzzyScore exactMatchScorer (some "wireless mouse".toList)
      (some wirelessMouse) ≤ 100 := by
  have h : ratiosInRange exactMatchScorer := by
    intro a b
    unfold exactMatchScorer
    dsimp only
    split_ifs <;> norm_num
  exact ⟨h, calculateFuzzyScore_range exactMatchScorer _ _ h⟩

/-- C7. For every term and product, `calculateFuzzyScore` returns
min(100, max(1.5 * nameRatio, 1.2 * maxKeywordRatio, descPartialRatio)): the name ratio is
the full ratio of the normalised term against the normalised name, the description ratio
the partial ratio against the normalised description, and the keyword ratio the maximum
full ratio over the normalised keywords, 0 without keywords. The library's full ratio is
non-negative, and for an empty or absent term (where the code returns 0 at once) both of
its scorers give 0 on the empty string. -/
theorem calculateFuzzyScore_formula (fuzzball : Fuzzball) (term : Option Str)
    (product : Product)
    (hnn : ∀ a b, 0 ≤ fuzzball.ratio a b)
    (hempty : term.getD [] = [] →
      ∀ b, fuzzball.ratio [] b = 0 ∧ fuzzball.partial_ratio [] b = 0) :
    calculateFuzzyScore fuzzball term (some product) =
      fuzzyScoreSpec fuzzball term product := by
  have hkw : ∀ (n : Str) (kws : List Str),
      mathMax0 (kws.map (fun kw => fuzzball.ratio n (normalizeSearchTerm (some kw)))) =
        maxKeywordRatio fuzzball n kws := by
    intro n kws
    unfold maxKeywordRatio
    apply mathMax0_eq_max?
    intro x hx
    rw [List.mem_map] at hx
    obtain ⟨kw, _, rfl⟩ := hx
    exact hnn _ _
  by_cases hterm : term.getD [] = []
  · have hz := hempty hterm
    have hcode : calculateFuzzyScore fuzzball term (some product) = 0 := by
      cases term with
      | none => rfl
      | some t =>
        have ht : t = [] := hterm
        subst ht
        rfl
    have hmk : maxKeywordRatio fuzzball [] (product.keywords.getD []) = 0 := by
      rw [← hkw]
      apply mathMax0_eq_zero
      intro x hx
      rw [List.mem_map] at hx
      obtain ⟨kw, _, rfl⟩ := hx
      exact (hz _).1
    rw [hcode]
    unfold fuzzyScoreSpec
    simp only [normalizeSearchTerm_of_empty term hterm, (hz _).1, (hz _).2, hmk]
    norm_num
  · cases term with
    | none => exact absurd rfl hterm
    | some t =>
      have ht : t ≠ [] := hterm
      unfold fuzzyScoreSpec
      simp only [calculateFuzzyScore, if_neg ht, normalizeSearchTerm_getD]
      have hk : (match product.keywords with
          | some keywords => mathMax0 (keywords.map (fun kw =>
              fuzzball.ratio (normalizeSearchTerm (some t)) (normalizeSearchTerm (some kw))))
          | none => 0) =
          maxKeywordRatio fuzzball (normalizeSearchTerm (some t))
            (product.keywords.getD []) := by
        cases product.keywords with
        | none => rfl
        | some kws => exact hkw _ kws
      rw [hk, mul_comm (fuzzball.ratio _ _), mul_comm (maxKeywordRatio _ _ _)]

/-- C7, on the test product and the term `Mouse!`: the keyword `mouse` matches, the
score is min(100, 1.2 * 100) = 100. -/
theorem calculateFuzzyScore_formula_witness :
    calculateFuzzyScore exactMatchScorer (some "Mouse!".toList) (some wirelessMouse) =
      fuzzyScoreSpec exactMatchScorer (some "Mouse!".toList) wirelessMouse ∧
    fuzzyScoreSpec exactMatchScorer (some "Mouse!".toList) wirelessMouse = 100 := by
  refine ⟨calculateFuzzyScore_formula exactMatchScorer _ _
    (fun a b => by unfold exactMatchScorer; dsimp only; split_ifs <;> norm_num)
    (fun _ b => by simp [exactMatchScorer]), ?_⟩
  have h1 : normalizeSearchTerm (some "Mouse!".toList) = "mouse".toList := by decide
  have h2 : normalizeSearchTerm wirelessMouse.name = "wireless mouse".toList := by decide
  have h3 : normalizeSearchTerm wirelessMouse.description =
      "a high-quality wireless mouse".toList := by decide
  have h4 : (wirelessMouse.keywords.getD []).map (fun kw => normalizeSearchTerm (some kw)) =
      ["mouse".toList, "wireless".toList] := by decide
  have h5 : exactMatchScorer.ratio "mouse".toList "wireless mouse".toList = 0 := by
    simp [exactMatchScorer]
  have h6 : exactMatchScorer.partial_ratio "mouse".toList
      "a high-quality wireless mouse".toList = 0 := by
    simp [exactMatchScorer]
  have h7 : maxKeywordRatio exactMatchScorer "mouse".toList
      (wirelessMouse.keywords.getD []) = 100 := by
    unfold maxKeywordRatio
    have e : (wirelessMouse.keywords.getD []).map (fun kw =>
        exactMatchScorer.ratio "mouse".toList (normalizeSearchTerm (some kw))) =
        ((wirelessMouse.keywords.getD []).map (fun kw => normalizeSearchTerm (some kw))).map
          (fun k => exactMatchScorer.ratio "mouse".toList k) := by
      rw [List.map_map]
      rfl
    rw [e, h4]
    simp [exactMatchScorer, List.max?]
  unfold fuzzyScoreSpec
  simp only [h1, h2, h3, h5, h6, h7]
  norm_num

/-- C8. `calculateFuzzyScore` returns 0 whenever the search term is absent or empty, for
every product (an absent one included), and whenever the product is absent, for every
term. -/
theorem calculateFuzzyScore_zero (fuzzball : Fuzzball) :
    (∀ product, calculateFuzzyScore fuzzball none product = 0) ∧
    (∀ product, calculateFuzzyScore fuzzball (some []) product = 0) ∧
    (∀ term, calculateFuzzyScore fuzzball term none = 0) := by
  refine ⟨?_, ?_, ?_⟩
  · intro product
    rfl
  · intro product
    cases product with
    | none => rfl
    | some p => rfl
  · intro term
    cases term with
    | none => rfl
    | some t => rfl

/-! ## Claims about `normalizeSearchTerm` -/

/-- C9. The output of `normalizeSearchTerm` is not always trimmed: on the input
`! hello` the exclamation mark is removed after the trimming, and the result ` hello`
starts with a space. -/
theorem normalizeSearchTerm_leading_space :
    normalizeSearchTerm (some "! hello".toList) = " hello".toList ∧
    trim (normalizeSearchTerm (some "! hello".toList)) ≠
      normalizeSearchTerm (some "! hello".toList) := by
  decide

theorem dropWhile_isWhitespace_toLowerCase (s : Str) :
    (toLowerCase s).dropWhile isWhitespace = toLowerCase (s.dropWhile isWhitespace) := by
  unfold toLowerCase
  rw [List.dropWhile_map]
  have : isWhitespace ∘ lowerChar = isWhitespace := funext isWhitespace_lowerChar
  rw [this]

theorem trim_toLowerCase (s : Str) : trim (toLowerCase s) = toLowerCase (trim s) := by
  unfold trim List.rdropWhile
  rw [dropWhile_isWhitespace_toLowerCase]
  have hrev : ∀ t : Str, (toLowerCase t).reverse = toLowerCase t.reverse := by
    intro t
    unfold toLowerCase
    rw [List.map_reverse]
  rw [hrev, dropWhile_isWhitespace_toLowerCase, hrev]

theorem sortByScoreDesc_perm {α : Type} (score : α → ℚ) (xs : List α) :
    (sortByScoreDesc score xs).Perm xs :=
  List.perm_insertionSort _ xs

theorem sortByScoreDesc_sorted {α : Type} (score : α → ℚ) (xs : List α) :
    (sortByScoreDesc score xs).Sorted (fun a b => score b ≤ score a) := by
  haveI : IsTotal α (fun a b => score b ≤ score a) := ⟨fun a b => le_total (score b) (score a)⟩
  haveI : IsTrans α (fun a b => score b ≤ score a) := ⟨fun _ _ _ h₁ h₂ => le_trans h₂ h₁⟩
  exact List.sorted_insertionSort _ xs

theorem sortByScoreDesc_eq_self {α : Type} (score : α → ℚ) (xs : List α)
    (h : xs.Sorted (fun a b => score b ≤ score a)) : sortByScoreDesc score xs = xs :=
  List.Sorted.insertionSort_eq h

/-! ## Lemmas: `fuzzyMatchProducts` -/

theorem jsLength_nil : jsLength [] = 0 := rfl

theorem trim_nil : trim [] = [] := rfl

/-- For a term of more than two code units after trimming, the helper maps, filters and
sorts. -/
theorem fuzzyMatchProducts_of_long (fuzzball : Fuzzball) (term : Str)
    (products : List Product) (threshold : Option ℚ) (h : 2 < jsLength (trim term)) :
    fuzzyMatchProducts fuzzball (some term) (some products) threshold =
      sortByScoreDesc ScoredProduct.score
        ((products.map (scoreProduct fuzzball term)).filter
          (fun item => decide (item.score ≥ threshold.getD 70))) := by
  have hne : term ≠ [] := by
    intro h0
    rw [h0, trim_nil, jsLength_nil] at h
    exact absurd h (by decide)
  have hlen : ¬ jsLength (trim term) ≤ 2 := not_le.mpr h
  simp only [fuzzyMatchProducts, if_neg hne, if_neg hlen]
  rfl

theorem fuzzyMatchProducts_of_short (fuzzball : Fuzzball) (term : Option Str)
    (products : Option (List Product)) (threshold : Option ℚ)
    (h : jsLength (trim (term.getD [])) ≤ 2) :
    fuzzyMatchProducts fuzzball term products threshold = [] := by
  cases term with
  | none => rfl
  | some t =>
    cases products with
    | none => rfl
    | some ps =>
      have ht : jsLength (trim t) ≤ 2 := h
      simp only [fuzzyMatchProducts, if_pos ht]
      split <;> rfl

/-- Whatever the term, the result is a sorted rearrangement of the scored products that
reach the threshold, or the empty list. -/
theorem fuzzyMatchProducts_cases (fuzzball : Fuzzball) (term : Option Str)
    (products : Option (List Product)) (threshold : Option ℚ) :
    fuzzyMatchProducts fuzzball term products threshold = [] ∨
    ∃ t ps, term = some t ∧ products = some ps ∧ 2 < jsLength (trim t) ∧
      fuzzyMatchProducts fuzzball term products threshold =
        sortByScoreDesc ScoredProduct.score
          ((ps.map (scoreProduct fuzzball t)).filter
            (fun item => decide (item.score ≥ threshold.getD 70))) := by
  by_cases h : jsLength (trim (term.getD [])) ≤ 2
  · exact Or.inl (fuzzyMatchProducts_of_short fuzzball term products threshold h)
  · cases term with
    | none => exact Or.inl rfl
    | some t =>
      cases products with
      | none => exact Or.inl rfl
      | some ps =>
        have ht : 2 < jsLength (trim t) := not_le.mp h
        exact Or.inr ⟨t, ps, rfl, rfl, ht, fuzzyMatchProducts_of_long fuzzball t ps threshold ht⟩

theorem fuzzyMatchProducts_pairwise (fuzzball : Fuzzball) (term : Option Str)
    (products : Option (List Product)) (threshold : Option ℚ) :
    (fuzzyMatchProducts fuzzball term products threshold).Pairwise
      (fun a b => b.score ≤ a.score) := by
  rcases fuzzyMatchProducts_cases fuzzball term products threshold with h | ⟨t, ps, _, _, _, h⟩
  · rw [h]
    exact List.Pairwise.nil
  · rw [h]
    exact sortByScoreDesc_sorted _ _

theorem mem_fuzzyMatchProducts (fuzzball : Fuzzball) (term : Option Str)
    (products : List Product) (threshold : Option ℚ) (item : ScoredProduct)
    (h : item ∈ fuzzyMatchProducts fuzzball term (some products) threshold) :
    item.product ∈ products ∧
    item.score = calculateFuzzyScore fuzzball term (some item.product) ∧
    threshold.getD 70 ≤ item.score := by
  rcases fuzzyMatchProducts_cases fuzzball term (some products) threshold with
    h0 | ⟨t, ps, ht, hps, _, h1⟩
  · rw [h0] at h
    exact absurd h (List.not_mem_nil item)
  · have hps2 : products = ps := Option.some.inj hps
    subst hps2
    subst ht
    rw [h1, (sortByScoreDesc_perm _ _).mem_iff, List.mem_filter, List.mem_map] at h
    obtain ⟨⟨p, hp, rfl⟩, hth⟩ := h
    exact ⟨hp, rfl, of_decide_eq_true hth⟩

theorem map_product_scoreProduct (fuzzball : Fuzzball) (t : Str) (ps : List Product) :
    (ps.map (scoreProduct fuzzball t)).map ScoredProduct.product = ps := by
  rw [List.map_map]
  exact List.map_id ps

/-- The products of the result form, up to order, a sublist of the input products. -/
theorem fuzzyMatchProducts_subperm (fuzzball : Fuzzball) (term : Option Str)
    (products : List Product) (threshold : Option ℚ) :
    ((fuzzyMatchProducts fuzzball term (some products) threshold).map
      ScoredProduct.product).Subperm products := by
  rcases fuzzyMatchProducts_cases fuzzball term (some products) threshold with
    h0 | ⟨t, ps, _, hps, _, h1⟩
  · rw [h0]
    exact List.nil_subperm
  · have hps2 : products = ps := Option.some.inj hps
    subst hps2
    rw [h1]
    have hperm := ((sortByScoreDesc_perm ScoredProduct.score
      ((products.map (scoreProduct fuzzball t)).filter
        (fun item => decide (item.score ≥ threshold.getD 70)))).map ScoredProduct.product)
    have hsub : (((products.map (scoreProduct fuzzball t)).filter
        (fun item => decide (item.score ≥ threshold.getD 70))).map
        ScoredProduct.product).Sublist products := by
      have := (List.filter_sublist (p := fun item : ScoredProduct =>
        decide (item.score ≥ threshold.getD 70))
        (products.map (scoreProduct fuzzball t))).map ScoredProduct.product
      rwa [map_product_scoreProduct] at this
    exact hperm.subperm.trans hsub.subperm

/-! ## Claims about `fuzzyMatchProducts` -/

/-- C11. For every product list and every threshold, `fuzzyMatchProducts` returns the
empty list when the search term is empty (or absent) or has length at most 2 after
trimming. -/
theorem fuzzyMatchProducts_short_term (fuzzball : Fuzzball) (term : Option Str)
    (products : Option (List Product)) (threshold : Option ℚ)
    (h : term.getD [] = [] ∨ jsLength (trim (term.getD [])) ≤ 2) :
    fuzzyMatchProducts fuzzball term products threshold = [] := by
  apply fuzzyMatchProducts_of_short
  rcases h with h | h
  · rw [h, trim_nil, jsLength_nil]
    exact Nat.zero_le 2
  · exact h

/-- C11, on the tests' catalogue: the terms `m` and ` mo ` with the thresholds 1 and 0,
and the empty term. -/
theorem fuzzyMatchProducts_short_term_witness :
    fuzzyMatchProducts exactMatchScorer (some "m".toList) (some mockProducts) (some 1) = [] ∧
    fuzzyMatchProducts exactMatchScorer (some " mo ".toList) (some mockProducts) (some 0)
      = [] ∧
    fuzzyMatchProducts exactMatchScorer (some []) (some mockProducts) none = [] :=
  ⟨fuzzyMatchProducts_short_term _ _ _ _ (Or.inr (by decide)),
    fuzzyMatchProducts_short_term _ _ _ _ (Or.inr (by decide)),
    fuzzyMatchProducts_short_term _ _ _ _ (Or.inl rfl)⟩

/-- C12. For every term of trimmed length above 2, every product list and every
threshold, the result of `fuzzyMatchProducts` is a rearrangement of the input products
whose `calculateFuzzyScore` is at least the threshold, each paired with that score: no
product below the threshold is returned and none at or above it is left out. -/
theorem fuzzyMatchProducts_exactly (fuzzball : Fuzzball) (term : Str)
    (products : List Product) (threshold : Option ℚ) (h : 2 < jsLength (trim term)) :
    (fuzzyMatchProducts fuzzball (some term) (some products) threshold).Perm
      ((products.filter (fun p => decide (threshold.getD 70 ≤
        calculateFuzzyScore fuzzball (some term) (some p)))).map
        (fun p => { product := p,
                    score := calculateFuzzyScore fuzzball (some term) (some p) })) ∧
    (∀ item ∈ fuzzyMatchProducts fuzzball (some term) (some products) threshold,
      item.product ∈ products ∧
      item.score = calculateFuzzyScore fuzzball (some term) (some item.product) ∧
      threshold.getD 70 ≤ item.score) ∧
    (∀ p ∈ products,
      threshold.getD 70 ≤ calculateFuzzyScore fuzzball (some term) (some p) →
      ({ product := p, score := calculateFuzzyScore fuzzball (some term) (some p) } :
        ScoredProduct) ∈ fuzzyMatchProducts fuzzball (some term) (some products) threshold) := by
  rw [fuzzyMatchProducts_of_long fuzzball term products threshold h]
  refine ⟨?_, ?_, ?_⟩
  · refine (sortByScoreDesc_perm _ _).trans ?_
    rw [List.filter_map]
    exact List.Perm.refl _
  · intro item hitem
    rw [(sortByScoreDesc_perm _ _).mem_iff, List.mem_filter, List.mem_map] at hitem
    obtain ⟨⟨p, hp, rfl⟩, hth⟩ := hitem
    exact ⟨hp, rfl, of_decide_eq_true hth⟩
  · intro p hp hth
    rw [(sortByScoreDesc_perm _ _).mem_iff, List.mem_filter, List.mem_map]
    exact ⟨⟨p, hp, rfl⟩, decide_eq_true hth⟩

/-- C12, on the tests' catalogue with the term `mouse` and the threshold 70. -/
theorem fuzzyMatchProducts_exactly_witness :
    2 < jsLength (trim "mouse".toList) ∧
    ∀ item ∈ fuzzyMatchProducts exactMatchScorer (some "mouse".toList) (some mockProducts)
        (some 70),
      item.product ∈ mockProducts ∧
      item.score =
        calculateFuzzyScore exactMatchScorer (some "mouse".toList) (some item.product) ∧
      (some (70 : ℚ)).getD 70 ≤ item.score :=
  ⟨by decide,
    (fuzzyMatchProducts_exactly exactMatchScorer "mouse".toList mockProducts (some 70)
      (by decide)).2.1⟩

/-- C13. For every term, product list and threshold, the list returned by
`fuzzyMatchProducts` is in non-increasing score order: each element scores at least as
much as the next one, and as every later one. -/
theorem fuzzyMatchProducts_sorted (fuzzball : Fuzzball) (term : Option Str)
    (products : Option (List Product)) (threshold : Option ℚ) :
    (fuzzyMatchProducts fuzzball term products threshold).Chain'
      (fun a b => b.score ≤ a.score) ∧
    (fuzzyMatchProducts fuzzball term products threshold).Pairwise
      (fun a b => b.score ≤ a.score) := by
  have hs := fuzzyMatchProducts_pairwise fuzzball term products threshold
  exact ⟨hs.chain', hs⟩

/-- C14. For a fixed term and product list and thresholds `t1 ≤ t2`,
`fuzzyMatchProducts` with the threshold `t2` has no more results than with `t1`. -/
theorem fuzzyMatchProducts_threshold_mono (fuzzball : Fuzzball) (term : Option Str)
    (products : Option (List Product)) (t1 t2 : ℚ) (h : t1 ≤ t2) :
    (fuzzyMatchProducts fuzzball term products (some t2)).length ≤
      (fuzzyMatchProducts fuzzball term products (some t1)).length := by
  by_cases hshort : jsLength (trim (term.getD [])) ≤ 2
  · rw [fuzzyMatchProducts_of_short fuzzball term products (some t2) hshort]
    exact Nat.zero_le _
  · cases term with
    | none => exact Nat.le_refl _
    | some t =>
      cases products with
      | none => exact Nat.le_refl _
      | some ps =>
        have ht : 2 < jsLength (trim t) := not_le.mp hshort
        rw [fuzzyMatchProducts_of_long fuzzball t ps (some t2) ht,
          fuzzyMatchProducts_of_long fuzzball t ps (some t1) ht,
          (sortByScoreDesc_perm _ _).length_eq, (sortByScoreDesc_perm _ _).length_eq,
          ← List.countP_eq_length_filter, ← List.countP_eq_length_filter]
        apply List.countP_mono_left
        intro item _ hitem
        have h2 : t2 ≤ item.score := of_decide_eq_true hitem
        exact decide_eq_true (le_trans h h2)

/-- C14, on the thresholds 50 and 90 of the test. -/
theorem fuzzyMatchProducts_threshold_mono_witness :
    (fuzzyMatchProducts exactMatchScorer (some "mouse".toList) (some mockProducts)
      (some 90)).length ≤
    (fuzzyMatchProducts exactMatchScorer (some "mouse".toList) (some mockProducts)
      (some 50)).length :=
  fuzzyMatchProducts_threshold_mono exactMatchScorer _ _ 50 90 (by norm_num)

theorem toLowerCase_eq_of_differOnlyInCase (s t : Str) (h : differOnlyInCase s t = true) :
    toLowerCase s = toLowerCase t := by
  induction s generalizing t with
  | nil =>
    cases t with
    | nil => rfl
    | cons b bs => simp [differOnlyInCase] at h
  | cons a as ih =>
    cases t with
    | nil => simp [differOnlyInCase] at h
    | cons b bs =>
      simp only [differOnlyInCase, List.length_cons, List.zip_cons_cons, List.all_cons,
        Bool.and_eq_true, Bool.or_eq_true, beq_iff_eq, Nat.add_right_cancel_iff] at h
      obtain ⟨hlen, hhead, htail⟩ := h
      have hrec : toLowerCase as = toLowerCase bs := by
        apply ih
        simp only [differOnlyInCase, Bool.and_eq_true, beq_iff_eq]
        exact ⟨hlen, htail⟩
      have hc : lowerChar a = lowerChar b := by
        rcases hhead with hab | ⟨_, hab⟩
        · rw [hab]
        · exact hab
      show lowerChar a :: toLowerCase as = lowerChar b :: toLowerCase bs
      rw [hc, hrec]

theorem jsLength_toLowerCase (s : Str) : jsLength (toLowerCase s) = jsLength s := by
  unfold jsLength toLowerCase
  rw [List.map_map]
  congr 1
  apply List.map_congr_left
  intro c _
  by_cases h : 65 ≤ c.toNat ∧ c.toNat ≤ 90
  · have hl := toNat_lowerChar_of_upper c h.1 h.2
    have h1 : (lowerChar c).toNat < 0x10000 := by omega
    have h2 : c.toNat < 0x10000 := by omega
    simp only [Function.comp_apply, if_pos h1, if_pos h2]
  · simp only [Function.comp_apply, lowerChar_of_not_upper c h]

theorem jsLength_trim_congr (s t : Str) (h : toLowerCase s = toLowerCase t) :
    jsLength (trim s) = jsLength (trim t) := by
  rw [← jsLength_toLowerCase (trim s), ← jsLength_toLowerCase (trim t), ← trim_toLowerCase,
    ← trim_toLowerCase, h]

theorem normalizeSearchTerm_congr (s t : Str) (h : toLowerCase s = toLowerCase t) :
    normalizeSearchTerm (some s) = normalizeSearchTerm (some t) := by
  have hnil : s = [] ↔ t = [] := by
    rw [← toLowerCase_eq_nil s, ← toLowerCase_eq_nil t, h]
  by_cases hs : s = []
  · rw [hs, hnil.mp hs]
  · have ht : t ≠ [] := fun h0 => hs (hnil.mpr h0)
    simp only [normalizeSearchTerm, if_neg hs, if_neg ht, h]

theorem calculateFuzzyScore_congr (fuzzball : Fuzzball) (s t : Str)
    (h : toLowerCase s = toLowerCase t) (product : Option Product) :
    calculateFuzzyScore fuzzball (some s) product =
      calculateFuzzyScore fuzzball (some t) product := by
  have hnil : s = [] ↔ t = [] := by
    rw [← toLowerCase_eq_nil s, ← toLowerCase_eq_nil t, h]
  cases product with
  | none => rfl
  | some p =>
    by_cases hs : s = []
    · rw [hs, hnil.mp hs]
    · have ht : t ≠ [] := fun h0 => hs (hnil.mpr h0)
      simp only [calculateFuzzyScore, if_neg hs, if_neg ht, normalizeSearchTerm_congr s t h]

/-- C15. For every product list and threshold, two search terms that differ only in the
case of their ASCII letters give the same `fuzzyMatchProducts` result: the same products
with the same scores in the same order. -/
theorem fuzzyMatchProducts_case_insensitive (fuzzball : Fuzzball) (s t : Str)
    (products : Option (List Product)) (threshold : Option ℚ)
    (h : differOnlyInCase s t = true) :
    fuzzyMatchProducts fuzzball (some s) products threshold =
      fuzzyMatchProducts fuzzball (some t) products threshold := by
  have hl := toLowerCase_eq_of_differOnlyInCase s t h
  have hlen := jsLength_trim_congr s t hl
  by_cases hshort : jsLength (trim s) ≤ 2
  · rw [fuzzyMatchProducts_of_short fuzzball (some s) products threshold hshort,
      fuzzyMatchProducts_of_short fuzzball (some t) products threshold (hlen ▸ hshort)]
  · cases products with
    | none => rfl
    | some ps =>
      have hs : 2 < jsLength (trim s) := not_le.mp hshort
      rw [fuzzyMatchProducts_of_long fuzzball s ps threshold hs,
        fuzzyMatchProducts_of_long fuzzball t ps threshold (hlen ▸ hs)]
      have hsp : scoreProduct fuzzball s = scoreProduct fuzzball t := by
        funext p
        simp only [scoreProduct, calculateFuzzyScore_congr fuzzball s t hl]
      rw [hsp]

/-- C15, on the terms `MOUSE` and `mouse` of the test. -/
theorem fuzzyMatchProducts_case_insensitive_witness :
    differOnlyInCase "MOUSE".toList "mouse".toList = true ∧
    fuzzyMatchProducts exactMatchScorer (some "MOUSE".toList) (some mockProducts) (some 70) =
      fuzzyMatchProducts exactMatchScorer (some "mouse".toList) (some mockProducts)
        (some 70) :=
  ⟨by decide, fuzzyMatchProducts_case_insensitive exactMatchScorer _ _ _ _ (by decide)⟩

/-! ## Lemmas: `searchProductController` -/

theorem searchProductController_of_gate (fuzzball : Fuzzball) (ctx : SearchContext)
    (keyword : Str)
    (h : ctx.fuzzyMatchingEnabled = some "false".toList ∨ 10 ≤ ctx.exactMatches.length) :
    searchProductController fuzzball ctx keyword = ctx.exactMatches.map exactResult := by
  have hc : (!decide (ctx.fuzzyMatchingEnabled ≠ some "false".toList) ||
      decide (ctx.exactMatches.length ≥ 10)) = true := by
    rw [Bool.or_eq_true, Bool.not_eq_true', decide_eq_false_iff_not, decide_eq_true_eq,
      not_not]
    exact h
  simp only [searchProductController, hc, if_true]

theorem searchProductController_of_escalation (fuzzball : Fuzzball) (ctx : SearchContext)
    (keyword : Str) (h1 : ctx.fuzzyMatchingEnabled ≠ some "false".toList)
    (h2 : ctx.exactMatches.length < 10) :
    searchProductController fuzzball ctx keyword =
      ctx.exactMatches.map exactResult ++
        (sortByScoreDesc ScoredProduct.score (fuzzyTier fuzzball ctx keyword)).map
          fuzzyResult := by
  have hc : (!decide (ctx.fuzzyMatchingEnabled ≠ some "false".toList) ||
      decide (ctx.exactMatches.length ≥ 10)) = false := by
    rw [Bool.or_eq_false_iff, Bool.not_eq_false', decide_eq_true_eq, decide_eq_false_iff_not]
    exact ⟨h1, not_le.mpr h2⟩
  have hf : (fun item : ScoredProduct => !decide (item.product._id ∈
      newSet (ctx.exactMatches.map (fun p => p._id)))) =
      (fun item : ScoredProduct => decide (item.product._id ∉
        ctx.exactMatches.map (fun p => p._id))) := by
    funext item
    simp only [decide_not, mem_newSet]
  simp only [searchProductController, hc, fuzzyTier, hf]
  rfl

theorem fuzzyTier_pairwise (fuzzball : Fuzzball) (ctx : SearchContext) (keyword : Str) :
    (fuzzyTier fuzzball ctx keyword).Pairwise (fun a b => b.score ≤ a.score) :=
  (fuzzyMatchProducts_pairwise _ _ _ _).filter _

/-- The second sort of the merge step finds its input already sorted. -/
theorem sortByScoreDesc_fuzzyTier (fuzzball : Fuzzball) (ctx : SearchContext)
    (keyword : Str) :
    sortByScoreDesc ScoredProduct.score (fuzzyTier fuzzball ctx keyword) =
      fuzzyTier fuzzball ctx keyword :=
  sortByScoreDesc_eq_self _ _ (fuzzyTier_pairwise fuzzball ctx keyword)

theorem nodup_map_of_subperm {α β : Type} (f : α → β) {l₁ l₂ : List α}
    (h : l₁.Subperm l₂) (hn : (l₂.map f).Nodup) : (l₁.map f).Nodup := by
  obtain ⟨l, hperm, hsub⟩ := h
  have h1 : (l.map f).Nodup := List.Nodup.sublist (hsub.map f) hn
  exact (hperm.map f).nodup_iff.mp h1

theorem fuzzyTier_subperm (fuzzball : Fuzzball) (ctx : SearchContext) (keyword : Str) :
    ((fuzzyTier fuzzball ctx keyword).map ScoredProduct.product).Subperm
      (ctx.catalog.take 50) := by
  have h1 : ((fuzzyTier fuzzball ctx keyword).map ScoredProduct.product).Sublist
      ((fuzzyMatchProducts fuzzball (some keyword) (some (ctx.catalog.take 50))
        (some ctx.fuzzyThreshold)).map ScoredProduct.product) :=
    (List.filter_sublist _).map _
  exact h1.subperm.trans (fuzzyMatchProducts_subperm _ _ _ _)

/-! ## Claims about `searchProductController` -/

/-- C16. For every query, when the exact-match list and the candidate window returned by
the store each hold no product identity twice, the list returned by
`searchProductController` holds no product identity twice. -/
theorem searchProductController_nodup (fuzzball : Fuzzball) (ctx : SearchContext)
    (keyword : Str)
    (hexact : (ctx.exactMatches.map (fun p => p._id)).Nodup)
    (hcand : ((ctx.catalog.take 50).map (fun p => p._id)).Nodup) :
    ((searchProductController fuzzball ctx keyword).map (fun r => r.product._id)).Nodup := by
  have hex : (ctx.exactMatches.map exactResult).map (fun r => r.product._id) =
      ctx.exactMatches.map (fun p => p._id) := by
    rw [List.map_map]
    rfl
  by_cases hgate : ctx.fuzzyMatchingEnabled = some "false".toList ∨
      10 ≤ ctx.exactMatches.length
  · rw [searchProductController_of_gate fuzzball ctx keyword hgate, hex]
    exact hexact
  · have h1 : ctx.fuzzyMatchingEnabled ≠ some "false".toList := fun h => hgate (Or.inl h)
    have h2 : ctx.exactMatches.length < 10 := by
      by_contra hlt
      exact hgate (Or.inr (not_lt.mp hlt))
    rw [searchProductController_of_escalation fuzzball ctx keyword h1 h2,
      sortByScoreDesc_fuzzyTier, List.map_append, hex]
    have hfz : ((fuzzyTier fuzzball ctx keyword).map fuzzyResult).map
        (fun r => r.product._id) =
        ((fuzzyTier fuzzball ctx keyword).map ScoredProduct.product).map
          (fun p => p._id) := by
      rw [List.map_map, List.map_map]
      rfl
    rw [hfz, List.nodup_append]
    refine ⟨hexact, nodup_map_of_subperm _ (fuzzyTier_subperm fuzzball ctx keyword) hcand, ?_⟩
    intro x hx hy
    rw [List.mem_map] at hy
    obtain ⟨p, hp, rfl⟩ := hy
    rw [List.mem_map] at hp
    obtain ⟨item, hitem, rfl⟩ := hp
    have := (List.mem_filter.mp hitem).2
    exact (of_decide_eq_true this) hx

/-- C16, on a store whose only exact match is also among the fuzzy candidates. -/
theorem searchProductController_nodup_witness :
    ((searchProductController exactMatchScorer (mockContext none)
      "wireless mouse".toList).map (fun r => r.product._id)).Nodup :=
  searchProductController_nodup exactMatchScorer (mockContext none) _
    (by decide) (by decide)

/-- C17. If fuzzy matching is disabled, or the exact-match tier returned 10 or more
products, `searchProductController` returns exactly the exact-match list, unchanged and
in store order: every returned record is an exact match without fuzzy fields, so no
other candidate appears, however well it matches the query. -/
theorem searchProductController_exact_only (fuzzball : Fuzzball) (ctx : SearchContext)
    (keyword : Str)
    (h : ctx.fuzzyMatchingEnabled = some "false".toList ∨ 10 ≤ ctx.exactMatches.length) :
    searchProductController fuzzball ctx keyword = ctx.exactMatches.map exactResult ∧
    (searchProductController fuzzball ctx keyword).map (fun r => r.product) =
      ctx.exactMatches ∧
    (∀ r ∈ searchProductController fuzzball ctx keyword,
      r.product ∈ ctx.exactMatches ∧ r.isFuzzyMatch = none ∧ r.fuzzyScore = none) := by
  rw [searchProductController_of_gate fuzzball ctx keyword h]
  refine ⟨rfl, ?_, ?_⟩
  · rw [List.map_map]
    exact List.map_id _
  · intro r hr
    rw [List.mem_map] at hr
    obtain ⟨p, hp, rfl⟩ := hr
    exact ⟨hp, rfl, rfl⟩

/-- C17, with fuzzy matching disabled: the keyboard, whose keyword `gaming` matches the
query exactly for the scorer, is not returned. -/
theorem searchProductController_exact_only_witness :
    searchProductController exactMatchScorer (mockContext (some "false".toList))
      "gaming".toList = [exactResult wirelessMouse] :=
  (searchProductController_exact_only exactMatchScorer
    (mockContext (some "false".toList)) "gaming".toList (Or.inl rfl)).1

/-- C18. When fuzzy matching is enabled and fewer than 10 exact matches exist, the result
of `searchProductController` is the exact-match list (in store order, without fuzzy
fields) followed by the fuzzy matches whose identity is not in the exact-match list, in
non-increasing score order, each carrying `isFuzzyMatch = true` and a `fuzzyScore` equal to
its `calculateFuzzyScore`, which is at least the configured threshold; for a keyword of
trimmed length above 2, every such candidate of the window is there. -/
theorem searchProductController_merge (fuzzball : Fuzzball) (ctx : SearchContext)
    (keyword : Str) (h1 : ctx.fuzzyMatchingEnabled ≠ some "false".toList)
    (h2 : ctx.exactMatches.length < 10) :
    searchProductController fuzzball ctx keyword =
      ctx.exactMatches.map exactResult ++ (fuzzyTier fuzzball ctx keyword).map fuzzyResult ∧
    (∀ r ∈ ctx.exactMatches.map exactResult, r.isFuzzyMatch = none ∧ r.fuzzyScore = none) ∧
    ((fuzzyTier fuzzball ctx keyword).map fuzzyResult).Pairwise
      (fun a b => b.fuzzyScore.getD 0 ≤ a.fuzzyScore.getD 0) ∧
    (∀ r ∈ (fuzzyTier fuzzball ctx keyword).map fuzzyResult,
      r.isFuzzyMatch = some true ∧
      r.fuzzyScore = some (calculateFuzzyScore fuzzball (some keyword) (some r.product)) ∧
      ctx.fuzzyThreshold ≤ calculateFuzzyScore fuzzball (some keyword) (some r.product) ∧
      r.product._id ∉ ctx.exactMatches.map (fun p => p._id) ∧
      r.product ∈ ctx.catalog.take 50) ∧
    (2 < jsLength (trim keyword) →
      ∀ p ∈ ctx.catalog.take 50,
        ctx.fuzzyThreshold ≤ calculateFuzzyScore fuzzball (some keyword) (some p) →
        p._id ∉ ctx.exactMatches.map (fun q => q._id) →
        fuzzyResult (scoreProduct fuzzball keyword p) ∈
          searchProductController fuzzball ctx keyword) := by
  have hres := searchProductController_of_escalation fuzzball ctx keyword h1 h2
  rw [sortByScoreDesc_fuzzyTier] at hres
  refine ⟨hres, ?_, ?_, ?_, ?_⟩
  · intro r hr
    rw [List.mem_map] at hr
    obtain ⟨p, _, rfl⟩ := hr
    exact ⟨rfl, rfl⟩
  · rw [List.pairwise_map]
    exact fuzzyTier_pairwise fuzzball ctx keyword
  · intro r hr
    rw [List.mem_map] at hr
    obtain ⟨item, hitem, rfl⟩ := hr
    have hf := List.mem_filter.mp hitem
    have hm := mem_fuzzyMatchProducts fuzzball (some keyword) (ctx.catalog.take 50)
      (some ctx.fuzzyThreshold) item hf.1
    refine ⟨rfl, ?_, ?_, of_decide_eq_true hf.2, hm.1⟩
    · show some item.score = _
      rw [hm.2.1]
      rfl
    · have h3 : ctx.fuzzyThreshold ≤ item.score := hm.2.2
      rw [hm.2.1] at h3
      exact h3
  · intro hlong p hp hth hid
    rw [hres, List.mem_append]
    right
    apply List.mem_map_of_mem
    unfold fuzzyTier
    rw [List.mem_filter]
    refine ⟨?_, decide_eq_true hid⟩
    rw [fuzzyMatchProducts_of_long fuzzball keyword _ _ hlong,
      (sortByScoreDesc_perm _ _).mem_iff, List.mem_filter]
    exact ⟨List.mem_map_of_mem _ hp, decide_eq_true hth⟩

/-- C18, on a store whose only exact match is also among the fuzzy candidates. -/
theorem searchProductController_merge_witness :
    searchProductController exactMatchScorer (mockContext none) "gaming".toList =
      (mockContext none).exactMatches.map exactResult ++
        (fuzzyTier exactMatchScorer (mockContext none) "gaming".toList).map fuzzyResult :=
  (searchProductController_merge exactMatchScorer (mockContext none) "gaming".toList
    (by decide) (by decide)).1

theorem jaccard_nonneg (A B : JInput) : 0 ≤ jaccard A B := by
  unfold jaccard
  rw [score_eq]
  split
  · exact le_refl 0
  · exact div_nonneg (Nat.cast_nonneg _) (Nat.cast_nonneg _)

/-! ## Lemmas: `relatedProductController` -/

/-- The score is positive exactly when the two inputs share a lowercased token. -/
theorem score_pos_iff (A B : JInput) :
    0 < (jaccardDetailed A B).score ↔
      ∃ t, t ∈ loweredTokens A ∧ t ∈ loweredTokens B := by
  constructor
  · intro hpos
    by_contra hno
    have hnil : (jaccardDetailed A B).intersection = [] := by
      rw [List.eq_nil_iff_forall_not_mem]
      intro t ht
      exact hno ⟨t, (mem_intersection A B t).mp ht⟩
    rw [score_eq, hnil] at hpos
    split at hpos
    · exact lt_irrefl 0 hpos
    · simp at hpos
  · rintro ⟨t, ht⟩
    have hmem : t ∈ (jaccardDetailed A B).intersection := (mem_intersection A B t).mpr ht
    have hi : 0 < (jaccardDetailed A B).intersection.length := List.length_pos_of_mem hmem
    have hu : 0 < (jaccardDetailed A B).union.length :=
      lt_of_lt_of_le hi (intersection_length_le_union_length A B)
    rw [score_eq, if_neg (Nat.pos_iff_ne_zero.mp hu)]
    apply div_pos
    · exact_mod_cast hi
    · exact_mod_cast hu

theorem relatedProductController_products (current : Product) (candidates : List Product)
    (limit : Option ℚ) :
    (relatedProductController { current := some current, candidates := candidates }
      limit).products =
      some (((relatedRanking current candidates).take ⌊max 0 (limit.getD 6)⌋₊).map
        toRelatedProduct) := by
  simp only [relatedProductController]
  split
  · next h =>
    have hc : candidates = [] := List.length_eq_zero.mp h
    subst hc
    have hr : relatedRanking current [] = [] := rfl
    rw [hr, List.take_nil]
    rfl
  · rfl

theorem relatedRanking_perm (current : Product) (candidates : List Product) :
    ((relatedRanking current candidates).map toRelatedProduct).Perm
      ((candidates.filter (fun p => decide
        (0 < jaccard (comparisonBasis current) (comparisonBasis p)))).map
        (relatedRecord current)) := by
  have h := (sortByScoreDesc_perm SimilarityItem.score
    ((candidates.map (similarityItem current)).filter
      (fun item => decide (item.score > 0)))).map toRelatedProduct
  have he : ((candidates.map (similarityItem current)).filter
      (fun item => decide (item.score > 0))).map toRelatedProduct =
      (candidates.filter (fun p => decide
        (0 < jaccard (comparisonBasis current) (comparisonBasis p)))).map
        (relatedRecord current) := by
    rw [List.filter_map, List.map_map]
    rfl
  rw [he] at h
  exact h

theorem relatedRanking_pairwise (current : Product) (candidates : List Product) :
    ((relatedRanking current candidates).map toRelatedProduct).Pairwise
      (fun a b => b.similarityScore ≤ a.similarityScore) := by
  rw [List.pairwise_map]
  exact sortByScoreDesc_sorted SimilarityItem.score _

theorem mem_relatedRanking (current : Product) (candidates : List Product)
    (r : RelatedProduct) (h : r ∈ (relatedRanking current candidates).map toRelatedProduct) :
    r.product ∈ candidates ∧ r = relatedRecord current r.product ∧ 0 < r.similarityScore := by
  rw [(relatedRanking_perm current candidates).mem_iff, List.mem_map] at h
  obtain ⟨p, hp, rfl⟩ := h
  have hf := List.mem_filter.mp hp
  exact ⟨hf.1, rfl, of_decide_eq_true hf.2⟩

/-! ## Claims about `relatedProductController` -/

/-- C19. For every source product and candidate set, a candidate whose comparison basis
shares no token with the source's basis has the Jaccard score 0 and does not appear in
the list returned by `relatedProductController`. -/
theorem relatedProductController_no_zero_score (current : Product)
    (candidates : List Product) (limit : Option ℚ) (p : Product)
    (h : ∀ t ∈ loweredTokens (comparisonBasis current),
      t ∉ loweredTokens (comparisonBasis p)) :
    jaccard (comparisonBasis current) (comparisonBasis p) = 0 ∧
    ∀ r ∈ ((relatedProductController { current := some current, candidates := candidates }
      limit).products.getD []), r.product ≠ p := by
  have hnot : ¬ 0 < (jaccardDetailed (comparisonBasis current) (comparisonBasis p)).score := by
    rw [score_pos_iff]
    rintro ⟨t, ht1, ht2⟩
    exact h t ht1 ht2
  have hge := (jaccard_nonneg (comparisonBasis current) (comparisonBasis p))
  refine ⟨le_antisymm (not_lt.mp hnot) hge, ?_⟩
  intro r hr hrp
  rw [relatedProductController_products, Option.getD_some, List.map_take] at hr
  have hm := mem_relatedRanking current candidates r (List.mem_of_mem_take hr)
  have hpos : 0 < r.similarityScore := hm.2.2
  rw [hm.2.1, hrp] at hpos
  exact hnot hpos

/-- C19, on the tests' catalogue: the keyboard shares no keyword with the mouse, scores 0
and is not among the products related to the mouse. -/
theorem relatedProductController_no_zero_score_witness :
    jaccard (comparisonBasis wirelessMouse) (comparisonBasis gamingKeyboard) = 0 ∧
    ∀ r ∈ ((relatedProductController
      { current := some wirelessMouse,
        candidates := [gamingKeyboard, usbCable, computerMonitor] }
      none).products.getD []), r.product ≠ gamingKeyboard :=
  relatedProductController_no_zero_score wirelessMouse
    [gamingKeyboard, usbCable, computerMonitor] none gamingKeyboard (by decide)

/-- C20. For every source product, candidate set and requested limit (6 when none is
given), the list returned by `relatedProductController` is the first `max(0, limit)`
entries (rounded down for a fractional limit) of the positive-score candidates sorted by
similarity score in non-increasing order; so it has at most `max(0, limit)` products, and
no candidate left out scores strictly higher than a returned one. -/
theorem relatedProductController_top (current : Product) (candidates : List Product)
    (limit : Option ℚ) :
    ∃ ranking : List RelatedProduct,
      ranking.Perm ((candidates.filter (fun p => decide
        (0 < jaccard (comparisonBasis current) (comparisonBasis p)))).map
        (relatedRecord current)) ∧
      ranking.Pairwise (fun a b => b.similarityScore ≤ a.similarityScore) ∧
      (relatedProductController { current := some current, candidates := candidates }
        limit).products = some (ranking.take ⌊max 0 (limit.getD 6)⌋₊) ∧
      (((ranking.take ⌊max 0 (limit.getD 6)⌋₊).length : ℚ) ≤ max 0 (limit.getD 6)) ∧
      (∀ p ∈ candidates,
        relatedRecord current p ∉ ranking.take ⌊max 0 (limit.getD 6)⌋₊ →
        ∀ r ∈ ranking.take ⌊max 0 (limit.getD 6)⌋₊,
          jaccard (comparisonBasis current) (comparisonBasis p) ≤ r.similarityScore) := by
  refine ⟨(relatedRanking current candidates).map toRelatedProduct,
    relatedRanking_perm current candidates, relatedRanking_pairwise current candidates,
    ?_, ?_, ?_⟩
  · rw [relatedProductController_products, List.map_take]
  · have h1 : (((relatedRanking current candidates).map toRelatedProduct).take
        ⌊max 0 (limit.getD 6)⌋₊).length ≤ ⌊max 0 (limit.getD 6)⌋₊ :=
      List.length_take_le _ _
    have h2 : ((⌊max 0 (limit.getD 6)⌋₊ : ℕ) : ℚ) ≤ max 0 (limit.getD 6) :=
      Nat.floor_le (le_max_left 0 _)
    exact le_trans (by exact_mod_cast h1) h2
  · intro p hp hout r hr
    have hrm := mem_relatedRanking current candidates r (List.mem_of_mem_take hr)
    by_cases hpos : 0 < jaccard (comparisonBasis current) (comparisonBasis p)
    · have hin : relatedRecord current p ∈
          (relatedRanking current candidates).map toRelatedProduct := by
        rw [(relatedRanking_perm current candidates).mem_iff]
        exact List.mem_map_of_mem _ (List.mem_filter.mpr ⟨hp, decide_eq_true hpos⟩)
      have hdrop : relatedRecord current p ∈
          ((relatedRanking current candidates).map toRelatedProduct).drop
            ⌊max 0 (limit.getD 6)⌋₊ := by
        rw [← List.take_append_drop ⌊max 0 (limit.getD 6)⌋₊
          ((relatedRanking current candidates).map toRelatedProduct), List.mem_append] at hin
        exact hin.resolve_left hout
      exact List.Sorted.rel_of_mem_take_of_mem_drop
        (relatedRanking_pairwise current candidates) hr hdrop
    · exact le_trans (not_lt.mp hpos) (le_of_lt hrm.2.2)

/-- C20, on the tests' catalogue with the limit 2. -/
theorem relatedProductController_top_witness :
    ∃ ranking : List RelatedProduct,
      ranking.Pairwise (fun a b => b.similarityScore ≤ a.similarityScore) ∧
      (relatedProductController
        { current := some wirelessMouse,
          candidates := [gamingKeyboard, usbCable, computerMonitor] }
        (some 2)).products = some (ranking.take ⌊max 0 ((some (2 : ℚ)).getD 6)⌋₊) := by
  obtain ⟨ranking, _, hs, hp, _⟩ := relatedProductController_top wirelessMouse
    [gamingKeyboard, usbCable, computerMonitor] (some 2)
  exact ⟨ranking, hs, hp⟩

theorem jaccard_eq_zero_of_no_shared_token (A B : JInput)
    (h : ∀ t ∈ loweredTokens A, t ∉ loweredTokens B) : jaccard A B = 0 := by
  have hnot : ¬ 0 < (jaccardDetailed A B).score := by
    rw [score_pos_iff]
    rintro ⟨t, ht1, ht2⟩
    exact h t ht1 ht2
  exact le_antisymm (not_lt.mp hnot) (jaccard_nonneg A B)

theorem relatedRanking_eq_nil (current : Product) (candidates : List Product)
    (h : ∀ p ∈ candidates, jaccard (comparisonBasis current) (comparisonBasis p) = 0) :
    relatedRanking current candidates = [] := by
  have hf : (candidates.map (similarityItem current)).filter
      (fun item => decide (item.score > 0)) = [] := by
    rw [List.filter_eq_nil_iff]
    intro item hitem
    rw [List.mem_map] at hitem
    obtain ⟨p, hp, rfl⟩ := hitem
    have h0 : (similarityItem current p).score = 0 := h p hp
    rw [h0]
    simp
  unfold relatedRanking
  rw [hf]
  rfl

theorem relatedProductController_response (current : Product) (candidates : List Product)
    (limit : Option ℚ) :
    relatedProductController { current := some current, candidates := candidates } limit =
      { status := 200, success := true, message := none,
        products := some (((relatedRanking current candidates).take
          ⌊max 0 (limit.getD 6)⌋₊).map toRelatedProduct) } := by
  simp only [relatedProductController]
  split
  · next h =>
    have hc : candidates = [] := List.length_eq_zero.mp h
    subst hc
    have hr : relatedRanking current [] = [] := rfl
    rw [hr, List.take_nil]
    rfl
  · rfl

/-- C21. When the source product does not exist, the response of
`relatedProductController` is a not-found failure (status 404, `success = false`, no
products list); when it exists and no candidate is similar to it, the response is a
success with an empty products list. The two responses differ. -/
theorem relatedProductController_not_found (current : Product)
    (candidates candidates' : List Product) (limit limit' : Option ℚ)
    (h : ∀ p ∈ candidates, jaccard (comparisonBasis current) (comparisonBasis p) = 0) :
    (relatedProductController { current := none, candidates := candidates' } limit').status
      = 404 ∧
    (relatedProductController { current := none, candidates := candidates' } limit').success
      = false ∧
    (relatedProductController { current := none, candidates := candidates' } limit').products
      = none ∧
    relatedProductController { current := some current, candidates := candidates } limit =
      { status := 200, success := true, message := none, products := some [] } ∧
    relatedProductController { current := none, candidates := candidates' } limit' ≠
      relatedProductController { current := some current, candidates := candidates }
        limit := by
  have hfound : relatedProductController
      { current := some current, candidates := candidates } limit =
      { status := 200, success := true, message := none, products := some [] } := by
    rw [relatedProductController_response, relatedRanking_eq_nil current candidates h,
      List.take_nil]
    rfl
  refine ⟨rfl, rfl, rfl, hfound, ?_⟩
  rw [hfound]
  intro heq
  have hs := congrArg RelatedResponse.success heq
  exact Bool.false_ne_true hs

/-- C21, on the tests' catalogue: a source that is not found, against the mouse with the
keyboard as its only candidate, which shares no keyword with it. -/
theorem relatedProductController_not_found_witness :
    relatedProductController { current := none, candidates := [gamingKeyboard] } none ≠
      relatedProductController
        { current := some wirelessMouse, candidates := [gamingKeyboard] } none :=
  (relatedProductController_not_found wirelessMouse [gamingKeyboard] [gamingKeyboard] none
    none
    (fun p hp => by
      rw [List.mem_singleton] at hp
      subst hp
      exact jaccard_eq_zero_of_no_shared_token _ _ (by decide))).2.2.2.2

/-! ## Lemmas: the cap of `calculateFuzzyScore` -/

theorem calculateFuzzyScore_le_100 (fuzzball : Fuzzball) (term : Option Str)
    (product : Option Product) : calculateFuzzyScore fuzzball term product ≤ 100 := by
  cases term with
  | none => simp [calculateFuzzyScore]
  | some t =>
    cases product with
    | none => simp [calculateFuzzyScore]
    | some p =>
      simp only [calculateFuzzyScore]
      split
      · norm_num
      · exact min_le_left _ _

theorem foldl_max_mono_init (l : List ℚ) (a b : ℚ) (h : a ≤ b) :
    l.foldl max a ≤ l.foldl max b := by
  induction l generalizing a b with
  | nil => exact h
  | cons x xs ih => exact ih _ _ (max_le_max h (le_refl x))

/-- `Math.max(0, ...scores)` is at least the maximum of the scores. -/
theorem max?_le_mathMax0 (l : List ℚ) :
    (match l.max? with | some m => m | none => 0) ≤ mathMax0 l := by
  cases l with
  | nil => exact le_refl 0
  | cons x xs =>
    simp only [mathMax0, List.foldl_cons, List.max?]
    exact foldl_max_mono_init xs _ _ (le_max_right 0 x)

theorem calculateFuzzyScore_eq_100_of_saturates (fuzzball : Fuzzball) (term : Str)
    (p : Product) (hterm : term ≠ []) (h : saturates fuzzball term p) :
    calculateFuzzyScore fuzzball (some term) (some p) = 100 := by
  apply le_antisymm (calculateFuzzyScore_le_100 _ _ _)
  simp only [calculateFuzzyScore, if_neg hterm, normalizeSearchTerm_getD]
  apply le_min (le_refl 100)
  rcases h with h | h
  · apply le_max_of_le_left
    apply le_max_of_le_left
    calc (100 : ℚ) ≤ 67 * (3 / 2) := by norm_num
      _ ≤ _ := mul_le_mul_of_nonneg_right h (by norm_num)
  · apply le_max_of_le_left
    apply le_max_of_le_right
    have hk : maxKeywordRatio fuzzball (normalizeSearchTerm (some term))
        (p.keywords.getD []) ≤
        (match p.keywords with
          | some keywords => mathMax0 (keywords.map (fun kw =>
              fuzzball.ratio (normalizeSearchTerm (some term))
                (normalizeSearchTerm (some kw))))
          | none => 0) := by
      cases hkw : p.keywords with
      | none => exact le_refl 0
      | some kws => exact max?_le_mathMax0 _
    calc (100 : ℚ) ≤ 84 * (6 / 5) := by norm_num
      _ ≤ _ := mul_le_mul_of_nonneg_right (le_trans h hk) (by norm_num)

/-- Stability: products that come in the order `a`, `b` and reach the threshold, `a` with
a score at least that of `b`, stay in that order in the result. -/
theorem fuzzyMatchProducts_pair (fuzzball : Fuzzball) (term : Str) (ps : List Product)
    (threshold : Option ℚ) (a b : Product) (hlong : 2 < jsLength (trim term))
    (hab : List.Sublist [a, b] ps)
    (ha : threshold.getD 70 ≤ calculateFuzzyScore fuzzball (some term) (some a))
    (hb : threshold.getD 70 ≤ calculateFuzzyScore fuzzball (some term) (some b))
    (hscore : calculateFuzzyScore fuzzball (some term) (some b) ≤
      calculateFuzzyScore fuzzball (some term) (some a)) :
    List.Sublist [scoreProduct fuzzball term a, scoreProduct fuzzball term b]
      (fuzzyMatchProducts fuzzball (some term) (some ps) threshold) := by
  rw [fuzzyMatchProducts_of_long fuzzball term ps threshold hlong]
  apply List.pair_sublist_insertionSort
  · exact hscore
  · have h1 : List.Sublist (([a, b].map (scoreProduct fuzzball term)).filter
        (fun item => decide (item.score ≥ threshold.getD 70)))
        ((ps.map (scoreProduct fuzzball term)).filter
          (fun item => decide (item.score ≥ threshold.getD 70))) :=
      (hab.map _).filter _
    have h2 : ([a, b].map (scoreProduct fuzzball term)).filter
        (fun item => decide (item.score ≥ threshold.getD 70)) =
        [scoreProduct fuzzball term a, scoreProduct fuzzball term b] := by
      have ha' : decide ((scoreProduct fuzzball term a).score ≥ threshold.getD 70) = true :=
        decide_eq_true ha
      have hb' : decide ((scoreProduct fuzzball term b).score ≥ threshold.getD 70) = true :=
        decide_eq_true hb
      simp only [List.map_cons, List.map_nil, List.filter_cons, ha', hb', if_true,
        List.filter_nil]
    rw [h2] at h1
    exact h1

theorem le_foldl_max_of_mem (l : List ℚ) (a y : ℚ) (h : y ∈ l) : y ≤ l.foldl max a := by
  induction l generalizing a with
  | nil => exact absurd h (List.not_mem_nil y)
  | cons x xs ih =>
    rw [List.foldl_cons]
    rcases List.mem_cons.mp h with h | h
    · rw [h]
      exact le_trans (le_max_right a x) (foldl_max_ge_init xs _)
    · exact ih _ h

theorem le_maxKeywordRatio (fuzzball : Fuzzball) (normalized : Str) (keywords : List Str)
    (kw : Str) (h : kw ∈ keywords) :
    fuzzball.ratio normalized (normalizeSearchTerm (some kw)) ≤
      maxKeywordRatio fuzzball normalized keywords := by
  unfold maxKeywordRatio
  cases keywords with
  | nil => exact absurd h (List.not_mem_nil kw)
  | cons k ks =>
    simp only [List.map_cons, List.max?]
    rcases List.mem_cons.mp h with h | h
    · rw [h]
      exact foldl_max_ge_init _ _
    · exact le_foldl_max_of_mem _ _ _ (List.mem_map_of_mem _ h)

/-- With the stand-in scorer, a product that has the keyword `mouse` is saturated for the
term `mouse`. -/
theorem saturates_mouse (p : Product) (h : "mouse".toList ∈ p.keywords.getD []) :
    saturates exactMatchScorer "mouse".toList p := by
  right
  have h1 : normalizeSearchTerm (some "mouse".toList) = "mouse".toList := by decide
  rw [h1]
  refine le_trans ?_ (le_maxKeywordRatio exactMatchScorer "mouse".toList _ _ h)
  rw [h1]
  have h100 : exactMatchScorer.ratio "mouse".toList "mouse".toList = 100 := by
    simp [exactMatchScorer]
  rw [h100]
  norm_num

/-! ## Claims about typo tolerance, weights and the cap -/

/-- C30. The cap saturates the score: `calculateFuzzyScore` returns exactly 100 whenever
the name ratio is at least 67 or the best keyword ratio at least 84; so two such
products tie at 100 and, whatever their ratios, keep in the result of
`fuzzyMatchProducts` the order they have in the product list. -/
theorem calculateFuzzyScore_cap (fuzzball : Fuzzball) (term : Str) (hterm : term ≠ []) :
    (∀ p, saturates fuzzball term p →
      calculateFuzzyScore fuzzball (some term) (some p) = 100) ∧
    (∀ (ps : List Product) (threshold : Option ℚ) (a b : Product),
      2 < jsLength (trim term) → threshold.getD 70 ≤ 100 → List.Sublist [a, b] ps →
      saturates fuzzball term a → saturates fuzzball term b →
      List.Sublist [({ product := a, score := 100 } : ScoredProduct),
          { product := b, score := 100 }]
        (fuzzyMatchProducts fuzzball (some term) (some ps) threshold)) := by
  refine ⟨fun p hp => calculateFuzzyScore_eq_100_of_saturates fuzzball term p hterm hp, ?_⟩
  intro ps threshold a b hlong hth hab ha hb
  have ha100 := calculateFuzzyScore_eq_100_of_saturates fuzzball term a hterm ha
  have hb100 := calculateFuzzyScore_eq_100_of_saturates fuzzball term b hterm hb
  have hpair := fuzzyMatchProducts_pair fuzzball term ps threshold a b hlong hab
    (by rw [ha100]; exact hth) (by rw [hb100]; exact hth) (by rw [ha100, hb100])
  have hsa : scoreProduct fuzzball term a = { product := a, score := 100 } := by
    simp only [scoreProduct, ha100]
  have hsb : scoreProduct fuzzball term b = { product := b, score := 100 } := by
    simp only [scoreProduct, hb100]
  rw [hsa, hsb] at hpair
  exact hpair

/-- C30, on two mice and the term `mouse`: both reach the cap through their keyword and
stay in catalogue order. -/
theorem calculateFuzzyScore_cap_witness :
    calculateFuzzyScore exactMatchScorer (some "mouse".toList) (some wirelessMouse) = 100 ∧
    List.Sublist [({ product := wirelessMouse, score := 100 } : ScoredProduct),
        { product := gamingMouse, score := 100 }]
      (fuzzyMatchProducts exactMatchScorer (some "mouse".toList)
        (some [wirelessMouse, gamingKeyboard, gamingMouse]) (some 70)) :=
  ⟨(calculateFuzzyScore_cap exactMatchScorer "mouse".toList (by decide)).1 wirelessMouse
      (saturates_mouse wirelessMouse (by decide)),
    (calculateFuzzyScore_cap exactMatchScorer "mouse".toList (by decide)).2
      [wirelessMouse, gamingKeyboard, gamingMouse] (some 70) wirelessMouse gamingMouse
      (by decide) (by show (70 : ℚ) ≤ 100; norm_num)
      (List.Sublist.cons₂ _ (List.Sublist.cons _ (List.Sublist.refl _)))
      (saturates_mouse wirelessMouse (by decide))
      (saturates_mouse gamingMouse (by decide))⟩

/-- The score of a term whose only non-zero component is the description ratio. -/
theorem calculateFuzzyScore_description_only (fuzzball : Fuzzball) (p : Product)
    (t : Str) (r : ℚ) (hr : 0 ≤ r) (ht : t ≠ [])
    (hname : fuzzball.ratio (normalizeSearchTerm (some t)) (normalizeSearchTerm p.name) = 0)
    (hkw : ∀ kw ∈ p.keywords.getD [],
      fuzzball.ratio (normalizeSearchTerm (some t)) (normalizeSearchTerm (some kw)) = 0)
    (hdesc : fuzzball.partial_ratio (normalizeSearchTerm (some t))
      (normalizeSearchTerm p.description) = r) :
    calculateFuzzyScore fuzzball (some t) (some p) = min 100 r := by
  have hk : (match p.keywords with
      | some keywords => mathMax0 (keywords.map (fun kw =>
          fuzzball.ratio (normalizeSearchTerm (some t)) (normalizeSearchTerm (some kw))))
      | none => 0) = 0 := by
    cases hkws : p.keywords with
    | none => rfl
    | some kws =>
      apply mathMax0_eq_zero
      intro x hx
      rw [List.mem_map] at hx
      obtain ⟨kw, hmem, rfl⟩ := hx
      apply hkw
      rw [hkws]
      exact hmem
  simp only [calculateFuzzyScore, if_neg ht, normalizeSearchTerm_getD, hname, hk, hdesc]
  rw [zero_mul, zero_mul, max_self, max_eq_right hr]

theorem min_cap_le_calculateFuzzyScore (fuzzball : Fuzzball) (p : Product) (t : Str)
    (ht : t ≠ []) :
    min 100 ((3 / 2) * fuzzball.ratio (normalizeSearchTerm (some t))
      (normalizeSearchTerm p.name)) ≤ calculateFuzzyScore fuzzball (some t) (some p) := by
  simp only [calculateFuzzyScore, if_neg ht, normalizeSearchTerm_getD]
  apply min_le_min (le_refl 100)
  rw [mul_comm]
  exact le_max_of_le_left (le_max_left _ _)

/-- C23. Name matches are weighted at least as high as description matches: for a ratio
`r` in [0,100], min(100, 1.5 r) is at least min(100, r), a term whose name ratio is `r`
scores at least min(100, 1.5 r), and so at least as much as a term whose only non-zero
component is a description partial ratio of `r`. For the test product, when the library
gives `wireless` a full ratio of at least 67 against the name or of at least 84 against
the keyword `wireless`, the term `wireless` scores more than 90 and at least as much as
the term `ergonomic`. -/
theorem calculateFuzzyScore_name_weight (fuzzball : Fuzzball) :
    (∀ r : ℚ, 0 ≤ r → r ≤ 100 → min 100 r ≤ min 100 ((3 / 2) * r)) ∧
    (∀ (p : Product) (t1 t2 : Str) (r : ℚ), 0 ≤ r → r ≤ 100 → t1 ≠ [] → t2 ≠ [] →
      fuzzball.ratio (normalizeSearchTerm (some t1)) (normalizeSearchTerm p.name) = r →
      fuzzball.ratio (normalizeSearchTerm (some t2)) (normalizeSearchTerm p.name) = 0 →
      (∀ kw ∈ p.keywords.getD [],
        fuzzball.ratio (normalizeSearchTerm (some t2)) (normalizeSearchTerm (some kw)) = 0) →
      fuzzball.partial_ratio (normalizeSearchTerm (some t2))
        (normalizeSearchTerm p.description) = r →
      calculateFuzzyScore fuzzball (some t2) (some p) = min 100 r ∧
      min 100 ((3 / 2) * r) ≤ calculateFuzzyScore fuzzball (some t1) (some p) ∧
      calculateFuzzyScore fuzzball (some t2) (some p) ≤
        calculateFuzzyScore fuzzball (some t1) (some p)) ∧
    ((67 ≤ fuzzball.ratio "wireless".toList "wireless mouse".toList ∨
        84 ≤ fuzzball.ratio "wireless".toList "wireless".toList) →
      calculateFuzzyScore fuzzball (some "ergonomic".toList) (some mockProduct) ≤
        calculateFuzzyScore fuzzball (some "wireless".toList) (some mockProduct) ∧
      90 < calculateFuzzyScore fuzzball (some "wireless".toList) (some mockProduct)) := by
  have harith : ∀ r : ℚ, 0 ≤ r → min 100 r ≤ min 100 ((3 / 2) * r) := by
    intro r hr
    apply min_le_min (le_refl 100)
    calc r = 1 * r := (one_mul r).symm
      _ ≤ (3 / 2) * r := mul_le_mul_of_nonneg_right (by norm_num) hr
  refine ⟨fun r hr _ => harith r hr, ?_, ?_⟩
  · intro p t1 t2 r hr0 _ ht1 ht2 hn1 hn2 hk2 hd2
    have h2 := calculateFuzzyScore_description_only fuzzball p t2 r hr0 ht2 hn2 hk2 hd2
    have h1 := min_cap_le_calculateFuzzyScore fuzzball p t1 ht1
    rw [hn1] at h1
    refine ⟨h2, h1, ?_⟩
    rw [h2]
    exact le_trans (harith r hr0) h1
  · intro h
    have hw : normalizeSearchTerm (some "wireless".toList) = "wireless".toList := by decide
    have hn : normalizeSearchTerm mockProduct.name = "wireless mouse".toList := by decide
    have hsat : saturates fuzzball "wireless".toList mockProduct := by
      rcases h with h | h
      · left
        rw [hw, hn]
        exact h
      · right
        rw [hw]
        refine le_trans ?_ (le_maxKeywordRatio fuzzball "wireless".toList _
          "wireless".toList (by decide))
        rw [hw]
        exact h
    have h100 := calculateFuzzyScore_eq_100_of_saturates fuzzball "wireless".toList
      mockProduct (by decide) hsat
    rw [h100]
    exact ⟨calculateFuzzyScore_le_100 _ _ _, by norm_num⟩

/-- C23, with the stand-in scorer: the name `wireless mouse` against the description,
both matched exactly, and the keyword `wireless` of the test product. -/
theorem calculateFuzzyScore_name_weight_witness :
    calculateFuzzyScore exactMatchScorer
        (some "A high-quality wireless mouse with ergonomic design".toList)
        (some mockProduct) ≤
      calculateFuzzyScore exactMatchScorer (some "Wireless Mouse".toList)
        (some mockProduct) ∧
    90 < calculateFuzzyScore exactMatchScorer (some "wireless".toList) (some mockProduct) := by
  have hn1 : normalizeSearchTerm (some "Wireless Mouse".toList) = "wireless mouse".toList := by
    decide
  have hn2 : normalizeSearchTerm
      (some "A high-quality wireless mouse with ergonomic design".toList) =
      "a high-quality wireless mouse with ergonomic design".toList := by decide
  have hname : normalizeSearchTerm mockProduct.name = "wireless mouse".toList := by decide
  have hdesc : normalizeSearchTerm mockProduct.description =
      "a high-quality wireless mouse with ergonomic design".toList := by decide
  refine ⟨((calculateFuzzyScore_name_weight exactMatchScorer).2.1 mockProduct
      "Wireless Mouse".toList
      "A high-quality wireless mouse with ergonomic design".toList 100
      (by norm_num) (by norm_num) (by decide) (by decide) ?_ ?_ ?_ ?_).2.2,
    ((calculateFuzzyScore_name_weight exactMatchScorer).2.2 (Or.inr ?_)).2⟩
  · rw [hn1, hname]
    simp [exactMatchScorer]
  · rw [hn2, hname]
    simp [exactMatchScorer]
  · intro kw hkw
    rw [hn2]
    have hk : kw ∈ ["mouse".toList, "wireless".toList, "computer".toList,
        "accessory".toList] := hkw
    simp only [List.mem_cons, List.mem_singleton, List.not_mem_nil, or_false] at hk
    rcases hk with rfl | rfl | rfl | rfl
    · have : normalizeSearchTerm (some "mouse".toList) = "mouse".toList := by decide
      rw [this]
      simp [exactMatchScorer]
    · have : normalizeSearchTerm (some "wireless".toList) = "wireless".toList := by decide
      rw [this]
      simp [exactMatchScorer]
    · have : normalizeSearchTerm (some "computer".toList) = "computer".toList := by decide
      rw [this]
      simp [exactMatchScorer]
    · have : normalizeSearchTerm (some "accessory".toList) = "accessory".toList := by decide
      rw [this]
      simp [exactMatchScorer]
  · rw [hn2, hdesc]
    simp [exactMatchScorer]
  · have h100 : exactMatchScorer.ratio "wireless".toList "wireless".toList = 100 := by
      simp [exactMatchScorer]
    rw [h100]
    norm_num

/-! ## Claims about tokenisation and the comparison basis -/

theorem comparisonBasis_eq_basisSpec (p : Product) : comparisonBasis p = basisSpec p := by
  unfold comparisonBasis basisSpec
  cases hk : p.keywords with
  | none => simp
  | some kws =>
    cases kws with
    | nil => simp
    | cons k ks => simp

/-- C25. In `relatedProductController` the comparison basis of a product, source or
candidate, is its keyword list when that list is non-empty and otherwise the text
name + space + description, a missing field being read as the empty string; the
`similarityScore` and `commonKeywords` of each returned candidate are the score and the
intersection of `jaccardDetailed(source basis, candidate basis)`. -/
theorem relatedProductController_basis (current : Product) (candidates : List Product)
    (limit : Option ℚ) :
    (∀ p, comparisonBasis p = basisSpec p) ∧
    (∀ r ∈ ((relatedProductController { current := some current, candidates := candidates }
        limit).products.getD []),
      r.product ∈ candidates ∧
      r.similarityScore =
        (jaccardDetailed (basisSpec current) (basisSpec r.product)).score ∧
      r.commonKeywords =
        (jaccardDetailed (basisSpec current) (basisSpec r.product)).intersection) := by
  refine ⟨comparisonBasis_eq_basisSpec, ?_⟩
  intro r hr
  rw [relatedProductController_products, Option.getD_some, List.map_take] at hr
  have hm := mem_relatedRanking current candidates r (List.mem_of_mem_take hr)
  refine ⟨hm.1, ?_, ?_⟩
  · rw [← comparisonBasis_eq_basisSpec, ← comparisonBasis_eq_basisSpec]
    exact congrArg RelatedProduct.similarityScore hm.2.1
  · rw [← comparisonBasis_eq_basisSpec, ← comparisonBasis_eq_basisSpec]
    exact congrArg RelatedProduct.commonKeywords hm.2.1

/-- C25, on the tests' catalogue: a mouse without keywords is compared through its name
and description. -/
theorem relatedProductController_basis_witness :
    comparisonBasis { name := some "Wireless Mouse".toList } =
      .text "Wireless Mouse ".toList ∧
    comparisonBasis wirelessMouse = .arr ["mouse".toList, "wireless".toList] ∧
    ∀ r ∈ ((relatedProductController
        { current := some wirelessMouse, candidates := [gamingMouse, gamingKeyboard] }
        none).products.getD []),
      r.similarityScore =
        (jaccardDetailed (basisSpec wirelessMouse) (basisSpec r.product)).score :=
  ⟨by decide, by decide,
    fun r hr => ((relatedProductController_basis wirelessMouse
      [gamingMouse, gamingKeyboard] none).2 r hr).2.1⟩

/-! ## Claims about the candidate window, idempotence and ties -/

theorem fuzzyTier_length_le (fuzzball : Fuzzball) (ctx : SearchContext) (keyword : Str) :
    (fuzzyTier fuzzball ctx keyword).length ≤ 50 := by
  have h1 := (fuzzyTier_subperm fuzzball ctx keyword).length_le
  rw [List.length_map] at h1
  exact le_trans h1 (List.length_take_le 50 ctx.catalog)

theorem searchProductController_cases (fuzzball : Fuzzball) (ctx : SearchContext)
    (keyword : Str) :
    searchProductController fuzzball ctx keyword = ctx.exactMatches.map exactResult ∨
    searchProductController fuzzball ctx keyword =
      ctx.exactMatches.map exactResult ++ (fuzzyTier fuzzball ctx keyword).map fuzzyResult := by
  by_cases hgate : ctx.fuzzyMatchingEnabled = some "false".toList ∨
      10 ≤ ctx.exactMatches.length
  · exact Or.inl (searchProductController_of_gate fuzzball ctx keyword hgate)
  · have h1 : ctx.fuzzyMatchingEnabled ≠ some "false".toList := fun h => hgate (Or.inl h)
    have h2 : ctx.exactMatches.length < 10 := by
      by_contra hlt
      exact hgate (Or.inr (not_lt.mp hlt))
    right
    rw [searchProductController_of_escalation fuzzball ctx keyword h1 h2,
      sortByScoreDesc_fuzzyTier]

theorem filter_fuzzy_exact (ps : List Product) :
    (ps.map exactResult).filter (fun r => decide (r.isFuzzyMatch = some true)) = [] := by
  rw [List.filter_eq_nil_iff]
  intro r hr
  rw [List.mem_map] at hr
  obtain ⟨p, _, rfl⟩ := hr
  simp [exactResult]

/-- C26. In one search request the fuzzy tier scores at most 50 candidate products: the
window handed to `fuzzyMatchProducts` has at most 50 products, the result holds at most
50 fuzzy-flagged records, and every fuzzy-flagged record is a product of the window. -/
theorem searchProductController_window (fuzzball : Fuzzball) (ctx : SearchContext)
    (keyword : Str) :
    (ctx.catalog.take 50).length ≤ 50 ∧
    ((searchProductController fuzzball ctx keyword).filter
      (fun r => decide (r.isFuzzyMatch = some true))).length ≤ 50 ∧
    (∀ r ∈ searchProductController fuzzball ctx keyword,
      r.isFuzzyMatch = some true → r.product ∈ ctx.catalog.take 50) := by
  refine ⟨List.length_take_le 50 ctx.catalog, ?_, ?_⟩
  · rcases searchProductController_cases fuzzball ctx keyword with h | h
    · rw [h, filter_fuzzy_exact]
      exact Nat.zero_le 50
    · rw [h, List.filter_append, filter_fuzzy_exact, List.nil_append]
      refine le_trans (List.length_filter_le _ _) ?_
      rw [List.length_map]
      exact fuzzyTier_length_le fuzzball ctx keyword
  · intro r hr hflag
    rcases searchProductController_cases fuzzball ctx keyword with h | h
    · rw [h, List.mem_map] at hr
      obtain ⟨p, _, rfl⟩ := hr
      simp [exactResult] at hflag
    · rw [h, List.mem_append] at hr
      rcases hr with hr | hr
      · rw [List.mem_map] at hr
        obtain ⟨p, _, rfl⟩ := hr
        simp [exactResult] at hflag
      · rw [List.mem_map] at hr
        obtain ⟨item, hitem, rfl⟩ := hr
        exact (fuzzyTier_subperm fuzzball ctx keyword).subset
          (List.mem_map_of_mem ScoredProduct.product hitem)

theorem lowerChar_of_keptByRegex (c : Char) (h : keptByRegex c = true) : lowerChar c = c := by
  apply lowerChar_of_not_upper
  rintro ⟨h1, h2⟩
  have hws : isWhitespace c = false := isWhitespaceCode_ascii_letter _ h1 (by omega)
  have ha : 'a'.toNat = 97 := rfl
  have h0 : '0'.toNat = 48 := rfl
  have h9 : '9'.toNat = 57 := rfl
  have hd : (c == '-') = false := by
    rw [beq_eq_false_iff_ne]
    intro hc
    rw [hc] at h1
    exact absurd h1 (by decide)
  unfold keptByRegex at h
  rw [hws, hd, ha, h0, h9] at h
  simp only [Bool.or_false, Bool.or_eq_true, Bool.and_eq_true, decide_eq_true_eq] at h
  omega

theorem keptByRegex_of_mem_normalizeSearchTerm (term : Option Str) (c : Char)
    (h : c ∈ normalizeSearchTerm term) : keptByRegex c = true := by
  cases term with
  | none => exact absurd h (List.not_mem_nil c)
  | some t =>
    by_cases ht : t = []
    · rw [ht] at h
      exact absurd h (List.not_mem_nil c)
    · simp only [normalizeSearchTerm, if_neg ht] at h
      exact (List.mem_filter.mp h).2

theorem trim_sublist (s : Str) : List.Sublist (trim s) s := by
  unfold trim
  exact (List.rdropWhile_prefix _ _).sublist.trans (List.dropWhile_sublist _)

/-- A second normalisation only trims the result of the first: the output is a fixed
point exactly when it has no whitespace at its ends. -/
theorem normalizeSearchTerm_twice (term : Option Str) :
    normalizeSearchTerm (some (normalizeSearchTerm term)) = trim (normalizeSearchTerm term) := by
  by_cases ho : normalizeSearchTerm term = []
  · rw [ho]
    rfl
  · have hlow : toLowerCase (normalizeSearchTerm term) = normalizeSearchTerm term := by
      unfold toLowerCase
      conv_rhs => rw [← List.map_id (normalizeSearchTerm term)]
      apply List.map_congr_left
      intro c hc
      exact lowerChar_of_keptByRegex c (keptByRegex_of_mem_normalizeSearchTerm term c hc)
    have hgen : ∀ o : Str, o ≠ [] →
        normalizeSearchTerm (some o) = (trim (toLowerCase o)).filter keptByRegex := by
      intro o hne
      simp only [normalizeSearchTerm, if_neg hne]
    have hstep := hgen (normalizeSearchTerm term) ho
    rw [hstep, hlow, List.filter_eq_self]
    intro c hc
    exact keptByRegex_of_mem_normalizeSearchTerm term c ((trim_sublist _).subset hc)

/-- C27. `normalizeSearchTerm` is not idempotent: on `! hello` it gives ` hello`, and
applied again it gives `hello`. -/
theorem normalizeSearchTerm_not_idempotent :
    normalizeSearchTerm (some "! hello".toList) = " hello".toList ∧
    normalizeSearchTerm (some (normalizeSearchTerm (some "! hello".toList))) =
      "hello".toList ∧
    normalizeSearchTerm (some (normalizeSearchTerm (some "! hello".toList))) ≠
      normalizeSearchTerm (some "! hello".toList) := by
  decide

/-- C28. Ties keep candidate order: in the result of `fuzzyMatchProducts`, two returned
products of equal score are in the order they have in the input list; and the second
sort, applied in the merge step of `searchProductController` to the filtered fuzzy
results, returns them unchanged. -/
theorem fuzzyMatchProducts_stable (fuzzball : Fuzzball) :
    (∀ (term : Str) (ps : List Product) (threshold : Option ℚ) (a b : Product),
      2 < jsLength (trim term) → List.Sublist [a, b] ps →
      threshold.getD 70 ≤ calculateFuzzyScore fuzzball (some term) (some a) →
      calculateFuzzyScore fuzzball (some term) (some a) =
        calculateFuzzyScore fuzzball (some term) (some b) →
      List.Sublist
        [({ product := a, score := calculateFuzzyScore fuzzball (some term) (some a) } :
            ScoredProduct),
          { product := b, score := calculateFuzzyScore fuzzball (some term) (some b) }]
        (fuzzyMatchProducts fuzzball (some term) (some ps) threshold)) ∧
    (∀ (ctx : SearchContext) (keyword : Str),
      sortByScoreDesc ScoredProduct.score
        ((fuzzyMatchProducts fuzzball (some keyword) (some (ctx.catalog.take 50))
          (some ctx.fuzzyThreshold)).filter
          (fun item => !decide (item.product._id ∈
            newSet (ctx.exactMatches.map (fun p => p._id))))) =
      (fuzzyMatchProducts fuzzball (some keyword) (some (ctx.catalog.take 50))
        (some ctx.fuzzyThreshold)).filter
        (fun item => !decide (item.product._id ∈
          newSet (ctx.exactMatches.map (fun p => p._id))))) := by
  constructor
  · intro term ps threshold a b hlong hab ha heq
    exact fuzzyMatchProducts_pair fuzzball term ps threshold a b hlong hab ha
      (heq ▸ ha) (le_of_eq heq.symm)
  · intro ctx keyword
    exact sortByScoreDesc_eq_self _ _ ((fuzzyMatchProducts_pairwise _ _ _ _).filter _)

/-- C28, on two mice that both score 100 for the term `mouse`. -/
theorem fuzzyMatchProducts_stable_witness :
    List.Sublist
      [({ product := wirelessMouse,
          score := calculateFuzzyScore exactMatchScorer (some "mouse".toList)
            (some wirelessMouse) } : ScoredProduct),
        { product := gamingMouse,
          score := calculateFuzzyScore exactMatchScorer (some "mouse".toList)
            (some gamingMouse) }]
      (fuzzyMatchProducts exactMatchScorer (some "mouse".toList)
        (some [wirelessMouse, gamingKeyboard, gamingMouse]) (some 70)) := by
  have h1 := calculateFuzzyScore_eq_100_of_saturates exactMatchScorer "mouse".toList
    wirelessMouse (by decide) (saturates_mouse wirelessMouse (by decide))
  have h2 := calculateFuzzyScore_eq_100_of_saturates exactMatchScorer "mouse".toList
    gamingMouse (by decide) (saturates_mouse gamingMouse (by decide))
  exact (fuzzyMatchProducts_stable exactMatchScorer).1 "mouse".toList
    [wirelessMouse, gamingKeyboard, gamingMouse] (some 70) wirelessMouse gamingMouse
    (by decide) (List.Sublist.cons₂ _ (List.Sublist.cons _ (List.Sublist.refl _)))
    (by rw [h1]; show (70 : ℚ) ≤ 100; norm_num) (by rw [h1, h2])

/-- C29. For all inputs A and B, `jaccard(A, B) > 0` if and only if the lowercased token
sets of A and B share a token; hence a related-product candidate that shares a token
with the source basis passes the score filter, and it is returned whenever the limit is
at least the number of candidates. -/
theorem jaccard_pos_iff_shared_token (A B : JInput) :
    (0 < jaccard A B ↔ ∃ t, t ∈ loweredTokens A ∧ t ∈ loweredTokens B) ∧
    (∀ (current : Product) (candidates : List Product) (p : Product), p ∈ candidates →
      (∃ t, t ∈ loweredTokens (comparisonBasis current) ∧
        t ∈ loweredTokens (comparisonBasis p)) →
      similarityItem current p ∈
        (candidates.map (similarityItem current)).filter
          (fun item => decide (item.score > 0)) ∧
      ∀ limit : Option ℚ, (candidates.length : ℚ) ≤ limit.getD 6 →
        relatedRecord current p ∈
          ((relatedProductController { current := some current, candidates := candidates }
            limit).products.getD [])) := by
  refine ⟨score_pos_iff A B, ?_⟩
  intro current candidates p hp hshared
  have hpos : 0 < (jaccardDetailed (comparisonBasis current) (comparisonBasis p)).score :=
    (score_pos_iff _ _).mpr hshared
  have hfilter : similarityItem current p ∈
      (candidates.map (similarityItem current)).filter
        (fun item => decide (item.score > 0)) :=
    List.mem_filter.mpr ⟨List.mem_map_of_mem _ hp, decide_eq_true hpos⟩
  refine ⟨hfilter, ?_⟩
  intro limit hlimit
  rw [relatedProductController_products, Option.getD_some]
  have hlen : (relatedRanking current candidates).length ≤ ⌊max 0 (limit.getD 6)⌋₊ := by
    have h1 : (relatedRanking current candidates).length ≤ candidates.length := by
      unfold relatedRanking
      rw [(sortByScoreDesc_perm _ _).length_eq]
      refine le_trans (List.length_filter_le _ _) ?_
      rw [List.length_map]
    have h2 : candidates.length ≤ ⌊max 0 (limit.getD 6)⌋₊ :=
      Nat.le_floor (le_trans hlimit (le_max_right 0 _))
    exact le_trans h1 h2
  rw [List.take_of_length_le hlen]
  have hmem : similarityItem current p ∈ relatedRanking current candidates := by
    unfold relatedRanking
    rw [(sortByScoreDesc_perm _ _).mem_iff]
    exact hfilter
  exact List.mem_map_of_mem toRelatedProduct hmem

/-- C29, on the tests' catalogue: the gaming mouse shares the keyword `mouse` with the
wireless mouse and is returned with the default limit. -/
theorem jaccard_pos_iff_shared_token_witness :
    relatedRecord wirelessMouse gamingMouse ∈
      ((relatedProductController
        { current := some wirelessMouse, candidates := [gamingKeyboard, gamingMouse] }
        none).products.getD []) :=
  ((jaccard_pos_iff_shared_token (comparisonBasis wirelessMouse)
      (comparisonBasis gamingMouse)).2 wirelessMouse [gamingKeyboard, gamingMouse]
    gamingMouse (by decide) ⟨"mouse".toList, by decide, by decide⟩).2 none
    (by show ((2 : ℕ) : ℚ) ≤ 6; norm_num)

end TechHub
